import Mathlib

/-!
# Verification of the `list_scheduling` repository

Shallow embedding of the three-phase scheduling engine
(`list_scheduling/schedulers.py`, `list_scheduling/utils.py`,
`list_scheduling/operation.py`; the module `list_scheduling/list_scheduling.py`
contains byte-for-byte equivalent copies of the same functions) together with
proofs of the specification claims.

Modelling conventions:
* Python `int` becomes `Int`; operation lists become `List`.
* Python list indexing `xs[i]` becomes `List.getD`; all accesses performed by
  the source are guarded (`index != -1`) and in range under the stated
  hypotheses, so the `getD` default is never observable there.
* The bounded `for` loops of the source become structural recursion on an
  explicit fuel equal to the Python loop bound.
* `max()` of an empty Python list raises `ValueError`; the embedding of
  `alap_scheduling` therefore returns an `Option`, with `none` for the raise.
-/

namespace ListSched

/-- Embeds class `ScheduleOperation` of `operation.py` (and the identical class
`Operation` of `list_scheduling.py`).  Only the fields the schedulers read are
kept: `type_op` is `'+'` for additive operations and `'*'` for multiplicative
ones (the constructor of the source normalises `+`/`-` to `'+'` and `*`/`/` to
`'*'`), and `index1`/`index2` are the operand indices extracted by
`extract_index` (`-1` for an external input variable). -/
structure ScheduleOperation where
  name : String
  type_op : Char
  index1 : Int
  index2 : Int

instance : Inhabited ScheduleOperation := ⟨⟨"", '+', -1, -1⟩⟩

/-- `array_operations[i]` (always in range in the source). -/
def opAt (ops : List ScheduleOperation) (i : Nat) : ScheduleOperation :=
  ops.getD i default

/-- Embeds `priority_function` of `utils.py`: `priority[i] = alap[i] - asap[i] + 1`
for `i < num_op`, starting from a zero vector of length `num_op`. -/
def priority_function (asap_schedule alap_schedule : List Int) (num_op : Nat) : List Int :=
  (List.range num_op).map fun i => alap_schedule.getD i 0 - asap_schedule.getD i 0 + 1

/-- The readiness test of the inner loop of `asap_scheduling`
(`schedulers.py` lines 70-89): the operation can be scheduled in this cycle
iff each of its two operands is an input variable (`-1`) or already done. -/
def asapReady (done : List Int) (op : ScheduleOperation) : Bool :=
  (op.index1 == -1 && op.index2 == -1) ||
  (op.index1 != -1 && done.getD op.index1.toNat (-1) != -1 &&
    (op.index2 == -1 || (op.index2 != -1 && done.getD op.index2.toNat (-1) != -1))) ||
  (op.index1 == -1 && op.index2 != -1 && done.getD op.index2.toNat (-1) != -1)

/-- One pass (`for i in range(num_op)`) of `asap_scheduling`: `temp` and `done`
coincide at the start of every pass, entries already set are kept, and a
not-yet-done operation whose operands are available is assigned `clk`. -/
def asapStep (ops : List ScheduleOperation) (done : List Int) (clk : Int) : List Int :=
  (List.range ops.length).map fun i =>
    if done.getD i (-1) != -1 then done.getD i (-1)
    else if asapReady done (opAt ops i) then clk
    else done.getD i (-1)

/-- The `for clk in range(1, num_op+1)` loop of `asap_scheduling`, with the
early exit `if done == temp: break`. -/
def asapLoop (ops : List ScheduleOperation) (done : List Int) (clk : Int) :
    Nat → List Int
  | 0 => done
  | Nat.succ fuel =>
    let temp := asapStep ops done clk
    if done == temp then done else asapLoop ops temp (clk + 1) fuel

/-- Embeds `asap_scheduling` of `schedulers.py` (lines 52-99). -/
def asap_scheduling (ops : List ScheduleOperation) : List Int :=
  asapLoop ops (List.replicate ops.length (-1)) 1 ops.length

/-- Whether position `p` is an operand of some operation scheduled at
`clk + 1` in `done` — the guard of the writes `temp[index1] = clk`,
`temp[index2] = clk` in `alap_scheduling` (an index equal to `-1` never
matches a position `p : Nat`). -/
def alapConsumed (ops : List ScheduleOperation) (done : List Int) (clk : Int) (p : Nat) : Bool :=
  (List.range ops.length).any fun i =>
    done.getD i (-1) == clk + 1 &&
    ((opAt ops i).index1 == Int.ofNat p || (opAt ops i).index2 == Int.ofNat p)

/-- One backward pass (`for i in range(num_op)`) of `alap_scheduling`: every
operand of an operation with `done[i] == clk + 1` is pushed down to `clk`;
all such writes in one pass write the same value `clk`, other entries are
kept (`temp` and `done` coincide at the start of every pass). -/
def alapStep (ops : List ScheduleOperation) (done : List Int) (clk : Int) : List Int :=
  (List.range done.length).map fun p =>
    if alapConsumed ops done clk p then clk else done.getD p (-1)

/-- The `for clk in range(clk_max - 1, 0, -1)` loop of `alap_scheduling`. -/
def alapLoop (ops : List ScheduleOperation) (done : List Int) (clk : Int) :
    Nat → List Int
  | 0 => done
  | Nat.succ fuel => alapLoop ops (alapStep ops done clk) (clk - 1) fuel

/-- Embeds `alap_scheduling` of `schedulers.py` (lines 101-154).
`max(asap_schedule)` raises `ValueError` on an empty vector, modelled by
`none`; `asap_schedule.index(clk_max)` is the first position attaining the
maximum. -/
def alap_scheduling (ops : List ScheduleOperation) (asap_schedule : List Int) :
    Option (List Int) :=
  match asap_schedule.max? with
  | none => none
  | some clk_max =>
    let pos := asap_schedule.indexOf clk_max
    let done := (List.replicate ops.length (-1)).set pos clk_max
    some (alapLoop ops done (clk_max - 1) (clk_max - 1).toNat)

/-- The readiness test of the first inner loop of `priority_scheduling`
(`schedulers.py` lines 219-233): an operation becomes ready (`1`) when each
operand is an input variable (`-1`) or already executed (`2`). -/
def readyCond (ready : List Int) (op : ScheduleOperation) : Bool :=
  (op.index1 == -1 && op.index2 == -1) ||
  (op.index1 != -1 && ready.getD op.index1.toNat 0 == 2 &&
    (op.index2 == -1 || (op.index2 != -1 && ready.getD op.index2.toNat 0 == 2))) ||
  (op.index2 != -1 && ready.getD op.index2.toNat 0 == 2 && op.index1 == -1)

/-- The readiness scan of one clock cycle of `priority_scheduling`
(lines 209-235 followed by `ready = temp.copy()`): `ready` and `temp`
coincide at the start of every cycle, entries with a nonzero status are kept,
and newly ready operations are marked `1`. -/
def readyStep (ops : List ScheduleOperation) (ready : List Int) : List Int :=
  (List.range ops.length).map fun i =>
    if ready.getD i 0 != 0 then ready.getD i 0
    else if readyCond ready (opAt ops i) then 1
    else ready.getD i 0

/-- The inner `for j in range(num_op)` loop filling resource slot `i`
(`schedulers.py` lines 247-258 for adders, 269-277 for multipliers):
a ready operation of the right class that is not already in the slot vector
takes an empty slot, and afterwards replaces the occupant exactly when its
priority is strictly greater. -/
def fillSlotBody (ops : List ScheduleOperation) (priority ready : List Int) (cls : Char)
    (i : Nat) (add : List Int) (j : Nat) : List Int :=
  if (opAt ops j).type_op == cls && ready.getD j 0 == 1 then
    if add.contains (Int.ofNat j) then add
    else if add.getD i (-1) == -1 then add.set i (Int.ofNat j)
    else if priority.getD (add.getD i (-1)).toNat 0 < priority.getD j 0 then
      add.set i (Int.ofNat j)
    else add
  else add

def fillSlot (ops : List ScheduleOperation) (priority ready : List Int) (cls : Char)
    (acc : List Int) (i : Nat) : List Int :=
  (List.range ops.length).foldl (fillSlotBody ops priority ready cls i) acc

/-- The outer `for i in range(n_adder)` (resp. `n_mult`) loop: the slot vector
starts as `[-1] * nSlots` and each slot is filled in turn. -/
def fillSlots (ops : List ScheduleOperation) (priority ready : List Int) (cls : Char)
    (nSlots : Nat) : List Int :=
  (List.range nSlots).foldl (fillSlot ops priority ready cls) (List.replicate nSlots (-1))

/-- The commit loop on the status vector: `temp[add[i]] = 2` for every
occupied slot. -/
def commitTemp (slots temp : List Int) : List Int :=
  slots.foldl (fun t s => if s != -1 then t.set s.toNat 2 else t) temp

/-- The commit loop on the schedule vector: `scheduling[add[i]] = clk` for
every occupied slot. -/
def commitSched (slots sched : List Int) (clk : Int) : List Int :=
  slots.foldl (fun t s => if s != -1 then t.set s.toNat clk else t) sched

/-- The mutable state of `priority_scheduling` at a cycle boundary, where
`ready` and `temp` coincide. -/
structure PState where
  ready : List Int
  sched : List Int

/-- One clock cycle of `priority_scheduling` (lines 209-288): readiness scan,
adder slots filled from the post-scan `ready` and committed, multiplier slots
filled from the same `ready` and committed, then `ready = temp.copy()`. -/
def prioCycle (ops : List ScheduleOperation) (priority : List Int) (n_mult n_adder : Int)
    (clk : Int) (st : PState) : PState :=
  let ready1 := readyStep ops st.ready
  let add := fillSlots ops priority ready1 '+' n_adder.toNat
  let temp1 := commitTemp add ready1
  let sched1 := commitSched add st.sched clk
  let mult := fillSlots ops priority ready1 '*' n_mult.toNat
  let temp2 := commitTemp mult temp1
  let sched2 := commitSched mult sched1 clk
  ⟨temp2, sched2⟩

/-- `all(x == 2 for x in ready)`. -/
def allDone (ready : List Int) : Bool := ready.all fun x => x == 2

/-- The `for clk in range(1, num_op + 1)` loop of `priority_scheduling` with
its final `break` when every operation is executed. -/
def prioLoop (ops : List ScheduleOperation) (priority : List Int) (n_mult n_adder : Int)
    (st : PState) (clk : Int) : Nat → List Int
  | 0 => st.sched
  | Nat.succ fuel =>
    let st' := prioCycle ops priority n_mult n_adder clk st
    if allDone st'.ready then st'.sched
    else prioLoop ops priority n_mult n_adder st' (clk + 1) fuel

/-- Embeds `priority_scheduling` of `schedulers.py` (lines 156-294): a negative
capacity behaves exactly like `0` in Python (`[-1] * n` and `range(n)` are
empty for `n <= 0`), hence `Int.toNat`. -/
def priority_scheduling (ops : List ScheduleOperation) (asap_schedule alap_schedule : List Int)
    (n_mult n_adder : Int) : List Int :=
  let num_op := ops.length
  let priority := priority_function asap_schedule alap_schedule num_op
  prioLoop ops priority n_mult n_adder
    ⟨List.replicate num_op 0, List.replicate num_op (-1)⟩ 1 num_op

/-- The state of `priority_scheduling` after `k` full clock cycles (cycle
`k` runs with `clk = k`). -/
def stAfter (ops : List ScheduleOperation) (priority : List Int) (n_mult n_adder : Int) :
    Nat → PState
  | 0 => ⟨List.replicate ops.length 0, List.replicate ops.length (-1)⟩
  | Nat.succ k =>
    prioCycle ops priority n_mult n_adder ((k : Int) + 1)
      (stAfter ops priority n_mult n_adder k)

/-- The `ready` vector at the cycle-`k` boundary. -/
def readyAt (ops : List ScheduleOperation) (priority : List Int) (n_mult n_adder : Int)
    (k : Nat) : List Int :=
  (stAfter ops priority n_mult n_adder k).ready

/-- The `scheduling` vector at the cycle-`k` boundary. -/
def schedAt (ops : List ScheduleOperation) (priority : List Int) (n_mult n_adder : Int)
    (k : Nat) : List Int :=
  (stAfter ops priority n_mult n_adder k).sched

/-- The slot vector of class `cls` filled during cycle `k + 1`. -/
def slotsAt (ops : List ScheduleOperation) (priority : List Int) (n_mult n_adder : Int)
    (cls : Char) (cap : Int) (k : Nat) : List Int :=
  fillSlots ops priority (readyStep ops (readyAt ops priority n_mult n_adder k)) cls cap.toNat

/-- Operation `i` has operation `j` as an internal dependency: one of its two
operand indices equals `j` (an index `-1`, i.e. an external input, never
matches). -/
def isDep (ops : List ScheduleOperation) (i j : Nat) : Prop :=
  (opAt ops i).index1 = Int.ofNat j ∨ (opAt ops i).index2 = Int.ofNat j

instance (ops : List ScheduleOperation) (i j : Nat) : Decidable (isDep ops i j) := by
  unfold isDep; infer_instance

/-- Every dependency reference of every operation is the sentinel `-1` or an
index of the sequence (§3 data-model invariant of the spec). -/
def InRange (ops : List ScheduleOperation) : Prop :=
  ∀ i < ops.length,
    ((opAt ops i).index1 = -1 ∨ 0 ≤ (opAt ops i).index1 ∧ (opAt ops i).index1 < ops.length) ∧
    ((opAt ops i).index2 = -1 ∨ 0 ≤ (opAt ops i).index2 ∧ (opAt ops i).index2 < ops.length)

instance (ops : List ScheduleOperation) : Decidable (InRange ops) := by
  unfold InRange; infer_instance

/-- Acyclicity of the dependency graph, witnessed by a rank function that
strictly decreases along dependency edges. -/
def RankAcyclic (ops : List ScheduleOperation) (rank : Nat → Nat) : Prop :=
  ∀ i < ops.length, ∀ j < ops.length, isDep ops i j → rank j < rank i

instance (ops : List ScheduleOperation) (rank : Nat → Nat) :
    Decidable (RankAcyclic ops rank) := by
  unfold RankAcyclic; infer_instance

/-- The maximum of a schedule vector over the internal dependencies of an
operation (`0` when both operands are external inputs), used to state the
ASAP recurrence of §4.1 of the spec. -/
def depMax (sched : List Int) (op : ScheduleOperation) : Int :=
  if op.index1 = -1 ∧ op.index2 = -1 then 0
  else if op.index2 = -1 then sched.getD op.index1.toNat 0
  else if op.index1 = -1 then sched.getD op.index2.toNat 0
  else max (sched.getD op.index1.toNat 0) (sched.getD op.index2.toNat 0)

/-- Both operands of `op` are external inputs or already assigned in the
schedule vector `done` (with `-1` marking "not yet assigned"). -/
def depsDone (done : List Int) (op : ScheduleOperation) : Prop :=
  (op.index1 = -1 ∨ done.getD op.index1.toNat (-1) ≠ -1) ∧
  (op.index2 = -1 ∨ done.getD op.index2.toNat (-1) ≠ -1)

instance (done : List Int) (op : ScheduleOperation) : Decidable (depsDone done op) := by
  unfold depsDone; infer_instance

/-- Dependency paths: `DPath ops s i L` holds when there is a chain of `L`
dependency edges from `s` down to `i` (each step moves from an operation to
one of its operands). -/
inductive DPath (ops : List ScheduleOperation) (s : Nat) : Nat → Nat → Prop
  | refl : DPath ops s s 0
  | tail {i j L} : DPath ops s i L → isDep ops i j → DPath ops s j (L + 1)

/-- Backward reachability from the ALAP anchor. -/
def Reachable (ops : List ScheduleOperation) (s i : Nat) : Prop :=
  ∃ L, DPath ops s i L

/-- The anchor operation of `alap_scheduling`: the first position of the
maximum ASAP value. -/
def alapSink (asap_schedule : List Int) : Nat :=
  asap_schedule.indexOf (asap_schedule.max?.getD 0)

/-! ## Generic list lemmas -/

lemma getD_map_range {α : Type} (f : Nat → α) {n i : Nat} (h : i < n) (d : α) :
    ((List.range n).map f).getD i d = f i := by
  simp [List.getD_eq_getElem?_getD, List.getElem?_map, List.getElem?_range, h]

lemma getD_eq_getElem {α : Type} (l : List α) (i : Nat) (d : α) (h : i < l.length) :
    l.getD i d = l[i] := by
  simp [List.getD_eq_getElem?_getD, List.getElem?_eq_getElem h]

lemma getD_set_self {α : Type} (l : List α) (i : Nat) (a d : α) (h : i < l.length) :
    (l.set i a).getD i d = a := by
  rw [getD_eq_getElem _ _ _ (by simpa using h)]
  simp [List.getElem_set, h]

lemma getD_set_ne {α : Type} (l : List α) {i q : Nat} (a d : α) (h : q ≠ i) :
    (l.set i a).getD q d = l.getD q d := by
  simp [List.getD_eq_getElem?_getD, List.getElem?_set_ne (Ne.symm h)]

lemma getD_replicate {α : Type} {n i : Nat} (a d : α) (h : i < n) :
    (List.replicate n a).getD i d = a := by
  rw [getD_eq_getElem _ _ _ (by simpa using h)]
  simp

lemma mem_of_getD {α : Type} {l : List α} {i : Nat} {d x : α} (h : i < l.length)
    (hx : l.getD i d = x) : x ∈ l := by
  rw [getD_eq_getElem _ _ _ h] at hx
  exact hx ▸ List.getElem_mem h

lemma set_getD_self {α : Type} (l : List α) (i : Nat) (d : α) :
    l.set i (l.getD i d) = l := by
  by_cases h : i < l.length
  · apply List.ext_getElem (by simp)
    intro q h1 h2
    rw [List.getElem_set]
    split
    · next heq => subst heq; exact getD_eq_getElem l i d h
    · rfl
  · rw [List.set_eq_of_length_le (by omega)]

lemma mem_set_iff {l : List Int} {i : Nat} (hi : i < l.length) (hl : l.getD i (-1) = -1)
    {x : Int} (hx : x ≠ -1) (occ : Int) : x ∈ l.set i occ ↔ x ∈ l ∨ x = occ := by
  constructor
  · intro hmem
    rcases List.mem_iff_getElem.mp hmem with ⟨q, hq, hval⟩
    rw [List.getElem_set] at hval
    by_cases hqi : i = q
    · right; rw [if_pos hqi] at hval; exact hval.symm
    · left; rw [if_neg hqi] at hval
      exact hval ▸ List.getElem_mem (by simpa using hq)
  · rintro (hmem | rfl)
    · rcases List.mem_iff_getElem.mp hmem with ⟨q, hq, hval⟩
      have hqi : q ≠ i := by
        intro h; subst h
        rw [getD_eq_getElem _ _ _ hq] at hl
        exact hx (hval ▸ hl)
      exact List.mem_iff_getElem.mpr ⟨q, by simpa using hq,
        by rw [List.getElem_set, if_neg (Ne.symm hqi)]; exact hval⟩
    · exact List.mem_iff_getElem.mpr ⟨i, by simpa using hi,
        by rw [List.getElem_set, if_pos rfl]⟩

lemma contains_iff (l : List Int) (a : Int) : l.contains a = true ↔ a ∈ l := by
  simp [List.contains]

lemma ofNat_ne_neg_one (n : Nat) : (Int.ofNat n : Int) ≠ -1 := by
  rw [Int.ofNat_eq_natCast]; omega

lemma length_foldl_set {α : Type} (F : List α → Nat → List α)
    (hF : ∀ acc j, (F acc j).length = acc.length) :
    ∀ (js : List Nat) (acc : List α), (js.foldl F acc).length = acc.length := by
  intro js
  induction js with
  | nil => intro acc; rfl
  | cons j js ih => intro acc; rw [List.foldl_cons, ih, hF]

/-! ## The slot-filling scan of `priority_scheduling` -/

/-- One step of the slot scan viewed on the occupant alone: the slot vector is
`base.set i occ` throughout the scan of slot `i`. -/
def slotStep (ops : List ScheduleOperation) (priority ready : List Int) (cls : Char)
    (base : List Int) (i : Nat) (occ : Int) (j : Nat) : Int :=
  if (opAt ops j).type_op == cls && ready.getD j 0 == 1 then
    if (base.set i occ).contains (Int.ofNat j) then occ
    else if occ == -1 then Int.ofNat j
    else if priority.getD occ.toNat 0 < priority.getD j 0 then Int.ofNat j
    else occ
  else occ

/-- The occupant of slot `i` after scanning operations `0, …, n-1`. -/
def slotScan (ops : List ScheduleOperation) (priority ready : List Int) (cls : Char)
    (base : List Int) (i : Nat) (n : Nat) : Int :=
  (List.range n).foldl (slotStep ops priority ready cls base i) (-1)

/-- Operation `j` is a candidate for a slot of class `cls` given the slot
vector `base` of the other slots: right class, ready, and not already booked
into another slot. -/
def slotCand (ops : List ScheduleOperation) (ready : List Int) (cls : Char)
    (base : List Int) (j : Nat) : Prop :=
  (opAt ops j).type_op = cls ∧ ready.getD j 0 = 1 ∧ Int.ofNat j ∉ base

instance (ops : List ScheduleOperation) (ready : List Int) (cls : Char)
    (base : List Int) (j : Nat) : Decidable (slotCand ops ready cls base j) := by
  unfold slotCand; infer_instance

lemma fillSlotBody_set (ops : List ScheduleOperation) (priority ready : List Int)
    (cls : Char) (base : List Int) (i : Nat) (hi : i < base.length) (occ : Int) (j : Nat) :
    fillSlotBody ops priority ready cls i (base.set i occ) j =
      base.set i (slotStep ops priority ready cls base i occ j) := by
  unfold fillSlotBody slotStep
  rw [getD_set_self _ _ _ _ hi]
  by_cases h1 : ((opAt ops j).type_op == cls && ready.getD j 0 == 1) = true
  · rw [if_pos h1, if_pos h1]
    by_cases h2 : ((base.set i occ).contains (Int.ofNat j)) = true
    · rw [if_pos h2, if_pos h2]
    · rw [if_neg h2, if_neg h2]
      by_cases h3 : (occ == -1) = true
      · rw [if_pos h3, if_pos h3, List.set_set]
      · rw [if_neg h3, if_neg h3]
        by_cases h4 : (priority.getD occ.toNat 0 < priority.getD j 0)
        · rw [if_pos h4, if_pos h4, List.set_set]
        · rw [if_neg h4, if_neg h4]
  · rw [if_neg h1, if_neg h1]

lemma fillSlot_eq_set_scan (ops : List ScheduleOperation) (priority ready : List Int)
    (cls : Char) (acc : List Int) (i : Nat) (hi : i < acc.length)
    (hacc : acc.getD i (-1) = -1) :
    fillSlot ops priority ready cls acc i =
      acc.set i (slotScan ops priority ready cls acc i ops.length) := by
  have key : ∀ (js : List Nat) (occ : Int),
      js.foldl (fillSlotBody ops priority ready cls i) (acc.set i occ) =
        acc.set i (js.foldl (slotStep ops priority ready cls acc i) occ) := by
    intro js
    induction js with
    | nil => intro occ; rfl
    | cons j js ih =>
      intro occ
      rw [List.foldl_cons, List.foldl_cons, fillSlotBody_set _ _ _ _ _ _ hi, ih]
  have h0 : acc = acc.set i (-1) := by rw [← hacc, set_getD_self]
  unfold fillSlot slotScan
  calc (List.range ops.length).foldl (fillSlotBody ops priority ready cls i) acc
      = (List.range ops.length).foldl (fillSlotBody ops priority ready cls i)
          (acc.set i (-1)) := by rw [← h0]
    _ = acc.set i ((List.range ops.length).foldl
          (slotStep ops priority ready cls acc i) (-1)) := key _ _

/-- The scan of one slot computes the first candidate attaining the maximum
priority: later candidates replace the occupant exactly when strictly
greater, so equal-priority contenders keep the lower index. -/
lemma slotScan_spec (ops : List ScheduleOperation) (priority ready : List Int)
    (cls : Char) (base : List Int) (i : Nat) (hi : i < base.length)
    (hbase : base.getD i (-1) = -1) (n : Nat) :
    (slotScan ops priority ready cls base i n = -1 ∧
      ∀ j < n, ¬ slotCand ops ready cls base j) ∨
    (∃ jo, jo < n ∧ slotScan ops priority ready cls base i n = Int.ofNat jo ∧
      slotCand ops ready cls base jo ∧
      (∀ j < n, slotCand ops ready cls base j →
        priority.getD j 0 ≤ priority.getD jo 0) ∧
      (∀ j < jo, slotCand ops ready cls base j →
        priority.getD j 0 < priority.getD jo 0)) := by
  have condTrue : ∀ j : Nat, slotCand ops ready cls base j →
      ((opAt ops j).type_op == cls && ready.getD j 0 == 1) = true := by
    intro j hc
    rw [Bool.and_eq_true, beq_iff_eq, beq_iff_eq]
    exact ⟨hc.1, hc.2.1⟩
  induction n with
  | zero => left; exact ⟨rfl, by omega⟩
  | succ n ih =>
    have hstep : slotScan ops priority ready cls base i (n + 1) =
        slotStep ops priority ready cls base i
          (slotScan ops priority ready cls base i n) n := by
      unfold slotScan
      rw [List.range_succ, List.foldl_append, List.foldl_cons, List.foldl_nil]
    have hmem : ∀ occ : Int, ((base.set i occ).contains (Int.ofNat n) = true) ↔
        (Int.ofNat n ∈ base ∨ Int.ofNat n = occ) := by
      intro occ
      rw [contains_iff]
      exact mem_set_iff hi hbase (x := Int.ofNat n) (ofNat_ne_neg_one n) occ
    rcases ih with ⟨hocc, hnone⟩ | ⟨jo, hjo, hocc, hcand, hmax, hstrict⟩
    · -- no candidate so far, occupant is -1
      rw [hstep, hocc]
      unfold slotStep
      by_cases h1 : ((opAt ops n).type_op == cls && ready.getD n 0 == 1) = true
      · rw [if_pos h1]
        by_cases h2 : ((base.set i (-1)).contains (Int.ofNat n)) = true
        · rw [if_pos h2]
          left
          refine ⟨rfl, fun j hj hc => ?_⟩
          rcases Nat.lt_succ_iff_lt_or_eq.mp hj with hj' | rfl
          · exact hnone j hj' hc
          · rcases (hmem (-1)).mp h2 with h | h
            · exact hc.2.2 h
            · exact ofNat_ne_neg_one _ h
        · rw [if_neg h2, if_pos (by rfl)]
          have hcn : slotCand ops ready cls base n := by
            have h1' := h1
            rw [Bool.and_eq_true, beq_iff_eq, beq_iff_eq] at h1'
            exact ⟨h1'.1, h1'.2, fun hm => h2 ((hmem (-1)).mpr (Or.inl hm))⟩
          right
          refine ⟨n, Nat.lt_succ_self n, rfl, hcn, fun j hj hc => ?_, fun j hj hc => ?_⟩
          · rcases Nat.lt_succ_iff_lt_or_eq.mp hj with hj' | rfl
            · exact absurd hc (hnone j hj')
            · exact le_refl _
          · exact absurd hc (hnone j hj)
      · rw [if_neg h1]
        left
        refine ⟨rfl, fun j hj hc => ?_⟩
        rcases Nat.lt_succ_iff_lt_or_eq.mp hj with hj' | rfl
        · exact hnone j hj' hc
        · exact h1 (condTrue j hc)
    · -- occupant is the leftmost maximum among candidates below n
      rw [hstep, hocc]
      unfold slotStep
      by_cases h1 : ((opAt ops n).type_op == cls && ready.getD n 0 == 1) = true
      · rw [if_pos h1]
        by_cases h2 : ((base.set i (Int.ofNat jo)).contains (Int.ofNat n)) = true
        · rw [if_pos h2]
          right
          refine ⟨jo, by omega, rfl, hcand, fun j hj hc => ?_, hstrict⟩
          rcases Nat.lt_succ_iff_lt_or_eq.mp hj with hj' | rfl
          · exact hmax j hj' hc
          · rcases (hmem (Int.ofNat jo)).mp h2 with h | h
            · exact absurd h hc.2.2
            · have hnj := Int.ofNat.inj h
              rw [hnj]
        · have hne : ¬ ((Int.ofNat jo == (-1 : Int)) = true) := by
            rw [beq_iff_eq]; exact ofNat_ne_neg_one jo
          rw [if_neg h2, if_neg hne, show (Int.ofNat jo).toNat = jo from rfl]
          have hcn : slotCand ops ready cls base n := by
            have h1' := h1
            rw [Bool.and_eq_true, beq_iff_eq, beq_iff_eq] at h1'
            exact ⟨h1'.1, h1'.2, fun hm => h2 ((hmem (Int.ofNat jo)).mpr (Or.inl hm))⟩
          by_cases h4 : (priority.getD jo 0 < priority.getD n 0)
          · rw [if_pos h4]
            right
            refine ⟨n, Nat.lt_succ_self n, rfl, hcn, fun j hj hc => ?_, fun j hj hc => ?_⟩
            · rcases Nat.lt_succ_iff_lt_or_eq.mp hj with hj' | rfl
              · exact le_of_lt (lt_of_le_of_lt (hmax j hj' hc) h4)
              · exact le_refl _
            · exact lt_of_le_of_lt (hmax j (by omega) hc) h4
          · rw [if_neg h4]
            right
            refine ⟨jo, by omega, rfl, hcand, fun j hj hc => ?_, hstrict⟩
            rcases Nat.lt_succ_iff_lt_or_eq.mp hj with hj' | rfl
            · exact hmax j hj' hc
            · exact le_of_not_lt h4
      · rw [if_neg h1]
        right
        refine ⟨jo, by omega, rfl, hcand, fun j hj hc => ?_, hstrict⟩
        rcases Nat.lt_succ_iff_lt_or_eq.mp hj with hj' | rfl
        · exact hmax j hj' hc
        · exact absurd (condTrue j hc) h1

/-! ## Claim C3: first-fit with strict priority replacement -/

/-- **C3.** In each cycle of `priority_scheduling`, a resource slot is filled
by scanning ready, unassigned operations of its class in increasing index
order (`slotScan`): the slot goes to the first candidate found and a
later-scanned candidate replaces the occupant exactly when its priority
(`ALAP - ASAP + 1`, i.e. `priority_function`) is strictly greater, so the
final occupant is a candidate of maximal priority that every earlier-scanned
candidate loses to strictly — equal-priority contention is won by the
lower-index operation. -/
theorem fillSlot_first_fit_strict_replacement (ops : List ScheduleOperation)
    (asap alap ready : List Int) (cls : Char) (priority : List Int)
    (hprio : priority = priority_function asap alap ops.length)
    (acc : List Int) (i : Nat) (hi : i < acc.length) (hacc : acc.getD i (-1) = -1) :
    (fillSlot ops priority ready cls acc i =
        acc.set i (slotScan ops priority ready cls acc i ops.length)) ∧
    ((slotScan ops priority ready cls acc i ops.length = -1 ∧
        ∀ j < ops.length, ¬ slotCand ops ready cls acc j) ∨
      (∃ jo, jo < ops.length ∧
        slotScan ops priority ready cls acc i ops.length = Int.ofNat jo ∧
        slotCand ops ready cls acc jo ∧
        (∀ j < ops.length, slotCand ops ready cls acc j →
          priority.getD j 0 ≤ priority.getD jo 0) ∧
        (∀ j < jo, slotCand ops ready cls acc j →
          priority.getD j 0 < priority.getD jo 0))) :=
  ⟨fillSlot_eq_set_scan ops priority ready cls acc i hi hacc,
    slotScan_spec ops priority ready cls acc i hi hacc ops.length⟩

/-- Witness for C3: two ready additive operations with equal priority compete
for one adder slot; the scan keeps the lower-index operation `u0`. -/
theorem fillSlot_first_fit_strict_replacement_witness :
    (fillSlot [⟨"u0", '+', -1, -1⟩, ⟨"u1", '+', -1, -1⟩]
        (priority_function [1, 1] [1, 1] 2) [1, 1] '+' [-1] 0 =
      ([-1] : List Int).set 0
        (slotScan [⟨"u0", '+', -1, -1⟩, ⟨"u1", '+', -1, -1⟩]
          (priority_function [1, 1] [1, 1] 2) [1, 1] '+' [-1] 0 2)) ∧
    ((slotScan [⟨"u0", '+', -1, -1⟩, ⟨"u1", '+', -1, -1⟩]
          (priority_function [1, 1] [1, 1] 2) [1, 1] '+' [-1] 0 2 = -1 ∧
        ∀ j < 2, ¬ slotCand [⟨"u0", '+', -1, -1⟩, ⟨"u1", '+', -1, -1⟩] [1, 1] '+' [-1] j) ∨
      (∃ jo, jo < 2 ∧
        slotScan [⟨"u0", '+', -1, -1⟩, ⟨"u1", '+', -1, -1⟩]
          (priority_function [1, 1] [1, 1] 2) [1, 1] '+' [-1] 0 2 = Int.ofNat jo ∧
        slotCand [⟨"u0", '+', -1, -1⟩, ⟨"u1", '+', -1, -1⟩] [1, 1] '+' [-1] jo ∧
        (∀ j < 2, slotCand [⟨"u0", '+', -1, -1⟩, ⟨"u1", '+', -1, -1⟩] [1, 1] '+' [-1] j →
          (priority_function [1, 1] [1, 1] 2).getD j 0 ≤
            (priority_function [1, 1] [1, 1] 2).getD jo 0) ∧
        (∀ j < jo, slotCand [⟨"u0", '+', -1, -1⟩, ⟨"u1", '+', -1, -1⟩] [1, 1] '+' [-1] j →
          (priority_function [1, 1] [1, 1] 2).getD j 0 <
            (priority_function [1, 1] [1, 1] 2).getD jo 0))) :=
  fillSlot_first_fit_strict_replacement [⟨"u0", '+', -1, -1⟩, ⟨"u1", '+', -1, -1⟩]
    [1, 1] [1, 1] [1, 1] '+' (priority_function [1, 1] [1, 1] 2) rfl [-1] 0
    (by decide) (by decide)

/-! ## Slot-vector facts used by the list-scheduler invariants -/

/-- `fillSlot` preserves the length of the slot vector. -/
lemma fillSlot_length (ops : List ScheduleOperation) (priority ready : List Int)
    (cls : Char) (acc : List Int) (i : Nat) :
    (fillSlot ops priority ready cls acc i).length = acc.length := by
  unfold fillSlot
  apply length_foldl_set
  intro a j
  unfold fillSlotBody
  repeat' split
  all_goals simp

/-- `fillSlot` only writes position `i`. -/
lemma fillSlot_other (ops : List ScheduleOperation) (priority ready : List Int)
    (cls : Char) (acc : List Int) (i : Nat) {q : Nat} (hq : q ≠ i) (d : Int) :
    (fillSlot ops priority ready cls acc i).getD q d = acc.getD q d := by
  unfold fillSlot
  generalize List.range ops.length = js
  induction js generalizing acc with
  | nil => rfl
  | cons j js ih =>
    rw [List.foldl_cons, ih]
    unfold fillSlotBody
    repeat' split
    all_goals first
      | rfl
      | rw [getD_set_ne _ _ _ hq]

/-- `fillSlots` returns a vector of exactly `nSlots` entries. -/
lemma fillSlots_length (ops : List ScheduleOperation) (priority ready : List Int)
    (cls : Char) (nSlots : Nat) :
    (fillSlots ops priority ready cls nSlots).length = nSlots := by
  unfold fillSlots
  rw [length_foldl_set _ (fun acc j => fillSlot_length ops priority ready cls acc j)]
  simp

/-- Invariant of the outer slot loop: filling slots `s, …, s+cnt-1` keeps the
lower slots untouched, keeps every occupant a ready operation of the right
class, and never books one operation into two slots. -/
lemma fillSlots_fold_inv (ops : List ScheduleOperation) (pr r : List Int) (cls : Char)
    (nSlots : Nat) :
    ∀ (cnt s : Nat) (acc : List Int),
      acc.length = nSlots → s + cnt ≤ nSlots →
      (∀ q, s ≤ q → q < nSlots → acc.getD q (-1) = -1) →
      (∀ p < nSlots, ∀ q < nSlots, p ≠ q →
        acc.getD p (-1) = -1 ∨ acc.getD p (-1) ≠ acc.getD q (-1)) →
      (∀ q < nSlots, acc.getD q (-1) = -1 ∨
        ∃ j < ops.length, acc.getD q (-1) = Int.ofNat j ∧
          (opAt ops j).type_op = cls ∧ r.getD j 0 = 1) →
      ((List.range' s cnt).foldl (fillSlot ops pr r cls) acc).length = nSlots ∧
      (∀ q < s, ((List.range' s cnt).foldl (fillSlot ops pr r cls) acc).getD q (-1) =
        acc.getD q (-1)) ∧
      (∀ p < nSlots, ∀ q < nSlots, p ≠ q →
        ((List.range' s cnt).foldl (fillSlot ops pr r cls) acc).getD p (-1) = -1 ∨
        ((List.range' s cnt).foldl (fillSlot ops pr r cls) acc).getD p (-1) ≠
          ((List.range' s cnt).foldl (fillSlot ops pr r cls) acc).getD q (-1)) ∧
      (∀ q < nSlots, ((List.range' s cnt).foldl (fillSlot ops pr r cls) acc).getD q (-1) = -1 ∨
        ∃ j < ops.length,
          ((List.range' s cnt).foldl (fillSlot ops pr r cls) acc).getD q (-1) = Int.ofNat j ∧
          (opAt ops j).type_op = cls ∧ r.getD j 0 = 1) := by
  intro cnt
  induction cnt with
  | zero =>
    intro s acc hlen hle huntouched hdist hent
    exact ⟨hlen, fun q hq => rfl, hdist, hent⟩
  | succ cnt ih =>
    intro s acc hlen hle huntouched hdist hent
    rw [List.range'_succ, List.foldl_cons]
    have hs : s < nSlots := by omega
    have hi : s < acc.length := by omega
    have hacc : acc.getD s (-1) = -1 := huntouched s (le_refl s) hs
    have hset := fillSlot_eq_set_scan ops pr r cls acc s hi hacc
    have hocc := slotScan_spec ops pr r cls acc s hi hacc ops.length
    set occ := slotScan ops pr r cls acc s ops.length with hoccdef
    have hoccmem : occ = -1 ∨ ∃ j < ops.length, occ = Int.ofNat j ∧
        (opAt ops j).type_op = cls ∧ r.getD j 0 = 1 ∧ occ ∉ acc := by
      rcases hocc with ⟨h, _⟩ | ⟨jo, hjo, h, hc, _, _⟩
      · exact Or.inl h
      · exact Or.inr ⟨jo, hjo, h, hc.1, hc.2.1, h ▸ hc.2.2⟩
    rw [hset]
    have hlen1 : (acc.set s occ).length = nSlots := by rw [List.length_set]; exact hlen
    have huntouched1 : ∀ q, s + 1 ≤ q → q < nSlots → (acc.set s occ).getD q (-1) = -1 := by
      intro q h1 h2
      rw [getD_set_ne _ _ _ (by omega)]
      exact huntouched q (by omega) h2
    have hval1 : ∀ q < nSlots, q ≠ s → (acc.set s occ).getD q (-1) = acc.getD q (-1) := by
      intro q _ hq
      exact getD_set_ne _ _ _ hq
    have hvs : (acc.set s occ).getD s (-1) = occ := getD_set_self _ _ _ _ hi
    have hdist1 : ∀ p < nSlots, ∀ q < nSlots, p ≠ q →
        (acc.set s occ).getD p (-1) = -1 ∨
        (acc.set s occ).getD p (-1) ≠ (acc.set s occ).getD q (-1) := by
      intro p hp q hq hpq
      by_cases hps : p = s
      · rw [hps, hvs]
        rcases hoccmem with h | ⟨j, _, hoeq, _, _, hnm⟩
        · exact Or.inl h
        · right
          intro heq
          have hq2 : q ≠ s := by omega
          rw [hval1 q hq hq2] at heq
          exact hnm (mem_of_getD (l := acc) (i := q) (by omega) heq.symm)
      · by_cases hqs : q = s
        · rw [hqs, hvs, hval1 p hp hps]
          rcases hoccmem with h | ⟨j, _, hoeq, _, _, hnm⟩
          · by_cases hp1 : acc.getD p (-1) = -1
            · exact Or.inl hp1
            · right
              rw [h]
              exact hp1
          · right
            intro heq
            exact hnm (mem_of_getD (l := acc) (i := p) (by omega) heq)
        · rw [hval1 p hp hps, hval1 q hq hqs]
          exact hdist p hp q hq hpq
    have hent1 : ∀ q < nSlots, (acc.set s occ).getD q (-1) = -1 ∨
        ∃ j < ops.length, (acc.set s occ).getD q (-1) = Int.ofNat j ∧
          (opAt ops j).type_op = cls ∧ r.getD j 0 = 1 := by
      intro q hq
      by_cases hqs : q = s
      · rw [hqs, hvs]
        rcases hoccmem with h | ⟨j, hj, h1, h2, h3, _⟩
        · exact Or.inl h
        · exact Or.inr ⟨j, hj, h1, h2, h3⟩
      · rw [hval1 q hq hqs]
        exact hent q hq
    obtain ⟨c1, c2, c3, c4⟩ := ih (s + 1) (acc.set s occ) hlen1 (by omega)
      huntouched1 hdist1 hent1
    refine ⟨c1, fun q hq => ?_, c3, c4⟩
    rw [c2 q (by omega), hval1 q (by omega) (by omega)]

/-- The filled slot vector: length, candidate entries, and no double-booking. -/
lemma fillSlots_spec (ops : List ScheduleOperation) (pr r : List Int) (cls : Char)
    (nSlots : Nat) :
    (fillSlots ops pr r cls nSlots).length = nSlots ∧
    (∀ p < nSlots, ∀ q < nSlots, p ≠ q →
      (fillSlots ops pr r cls nSlots).getD p (-1) = -1 ∨
      (fillSlots ops pr r cls nSlots).getD p (-1) ≠
        (fillSlots ops pr r cls nSlots).getD q (-1)) ∧
    (∀ q < nSlots, (fillSlots ops pr r cls nSlots).getD q (-1) = -1 ∨
      ∃ j < ops.length, (fillSlots ops pr r cls nSlots).getD q (-1) = Int.ofNat j ∧
        (opAt ops j).type_op = cls ∧ r.getD j 0 = 1) := by
  have hrep : ∀ q < nSlots, (List.replicate nSlots (-1 : Int)).getD q (-1) = -1 := by
    intro q hq
    exact getD_replicate _ _ hq
  obtain ⟨c1, _, c3, c4⟩ := fillSlots_fold_inv ops pr r cls nSlots nSlots 0
    (List.replicate nSlots (-1)) (by simp) (by omega) (fun q _ hq => hrep q hq)
    (fun p hp q hq hpq => Or.inl (hrep p hp)) (fun q hq => Or.inl (hrep q hq))
  unfold fillSlots
  rw [List.range_eq_range']
  exact ⟨c1, c3, c4⟩

/-- Membership inversion: everything stored in a slot is a ready operation of
the slot's class. -/
lemma fillSlots_mem (ops : List ScheduleOperation) (pr r : List Int) (cls : Char)
    (nSlots : Nat) {x : Int} (hx : x ∈ fillSlots ops pr r cls nSlots) (hx1 : x ≠ -1) :
    ∃ j < ops.length, x = Int.ofNat j ∧ (opAt ops j).type_op = cls ∧ r.getD j 0 = 1 := by
  obtain ⟨hlen, _, hent⟩ := fillSlots_spec ops pr r cls nSlots
  rcases List.mem_iff_getElem.mp hx with ⟨q, hq, hval⟩
  have hq' : q < nSlots := by omega
  have : (fillSlots ops pr r cls nSlots).getD q (-1) = x := by
    rw [getD_eq_getElem _ _ _ hq]; exact hval
  rcases hent q hq' with h | ⟨j, hj, h1, h2, h3⟩
  · exact absurd (this ▸ h) hx1
  · exact ⟨j, hj, this ▸ h1, h2, h3⟩

/-- If some ready operation of the class exists and there is at least one
slot, slot `0` ends up occupied. -/
lemma fillSlots_progress (ops : List ScheduleOperation) (pr r : List Int) (cls : Char)
    (nSlots : Nat) (h0 : 0 < nSlots)
    (hex : ∃ j < ops.length, (opAt ops j).type_op = cls ∧ r.getD j 0 = 1) :
    (fillSlots ops pr r cls nSlots).getD 0 (-1) ≠ -1 := by
  obtain ⟨m, rfl⟩ : ∃ m, nSlots = m + 1 := ⟨nSlots - 1, by omega⟩
  unfold fillSlots
  rw [List.range_eq_range', List.range'_succ, List.foldl_cons]
  set acc := List.replicate (m + 1) (-1 : Int) with haccdef
  have hlenacc : acc.length = m + 1 := by simp [haccdef]
  have hi : 0 < acc.length := by omega
  have hacc : acc.getD 0 (-1) = -1 := getD_replicate _ _ (by omega)
  have hset := fillSlot_eq_set_scan ops pr r cls acc 0 hi hacc
  have hocc := slotScan_spec ops pr r cls acc 0 hi hacc ops.length
  set occ := slotScan ops pr r cls acc 0 ops.length with hoccdef
  have hoccne : occ ≠ -1 := by
    rcases hocc with ⟨h, hnone⟩ | ⟨jo, hjo, h, _, _, _⟩
    · obtain ⟨j, hj, ht, hr⟩ := hex
      exfalso
      refine hnone j hj ⟨ht, hr, fun hm => ?_⟩
      rw [haccdef] at hm
      have := List.eq_of_mem_replicate hm
      exact ofNat_ne_neg_one j this
    · rw [h]; exact ofNat_ne_neg_one jo
  rw [hset]
  have hset0 : (acc.set 0 occ).getD 0 (-1) = occ := getD_set_self _ _ _ _ hi
  have hlen1 : (acc.set 0 occ).length = m + 1 := by simp [haccdef]
  obtain ⟨_, c2, _, _⟩ := fillSlots_fold_inv ops pr r cls (m + 1) m 1 (acc.set 0 occ)
    hlen1 (by omega)
    (fun q h1 h2 => by
      rw [getD_set_ne _ _ _ (by omega)]
      exact getD_replicate _ _ (by omega))
    (fun p hp q hq hpq => by
      by_cases hp0 : p = 0
      · subst hp0
        rw [hset0]
        right
        intro heq
        have hq0 : q ≠ 0 := Ne.symm hpq
        rw [getD_set_ne _ _ _ hq0] at heq
        have hoccacc : occ ∈ acc := mem_of_getD (l := acc) (i := q) (by omega) heq.symm
        exact hoccne (List.eq_of_mem_replicate (haccdef ▸ hoccacc))
      · rw [getD_set_ne _ _ _ hp0]
        exact Or.inl (getD_replicate _ _ (by omega)))
    (fun q hq => by
      by_cases hq0 : q = 0
      · subst hq0
        rw [hset0]
        rcases hocc with ⟨h, _⟩ | ⟨jo, hjo, h, hc, _, _⟩
        · exact absurd h hoccne
        · exact Or.inr ⟨jo, hjo, h, hc.1, hc.2.1⟩
      · rw [getD_set_ne _ _ _ hq0]
        exact Or.inl (getD_replicate _ _ (by omega)))
  rw [c2 0 (by omega), hset0]
  exact hoccne

/-! ## Commit and readiness-step characterisations -/

lemma commit_foldl_getD (v d : Int) :
    ∀ (slots t : List Int),
      (∀ x ∈ slots, x = -1 ∨ ∃ j, j < t.length ∧ x = Int.ofNat j) →
      ∀ q, q < t.length →
      ((slots.foldl (fun t2 s => if s != -1 then t2.set s.toNat v else t2) t).getD q d)
        = if Int.ofNat q ∈ slots then v else t.getD q d := by
  intro slots
  induction slots with
  | nil =>
    intro t hmem q hq
    simp
  | cons s rest ih =>
    intro t hmem q hq
    rw [List.foldl_cons]
    by_cases hs : (s != -1) = true
    · rw [if_pos hs]
      rcases hmem s (List.mem_cons_self _ _) with h | ⟨j, hj, rfl⟩
      · rw [h] at hs; simp at hs
      · have hlen : (t.set (Int.ofNat j).toNat v).length = t.length := by simp
        rw [ih (t.set (Int.ofNat j).toNat v)
          (fun x hx => by
            rcases hmem x (List.mem_cons_of_mem _ hx) with h | ⟨j2, hj2, h2⟩
            · exact Or.inl h
            · exact Or.inr ⟨j2, by omega, h2⟩) q (by omega)]
        by_cases hqrest : Int.ofNat q ∈ rest
        · rw [if_pos hqrest, if_pos (List.mem_cons_of_mem _ hqrest)]
        · rw [if_neg hqrest]
          by_cases hqj : q = j
          · subst hqj
            rw [if_pos (List.mem_cons_self _ _)]
            exact getD_set_self _ _ _ _ hq
          · rw [if_neg (by
              intro hmem2
              rcases List.mem_cons.mp hmem2 with h | h
              · exact hqj (Int.ofNat.inj h)
              · exact hqrest h)]
            rw [show (Int.ofNat j).toNat = j from rfl, getD_set_ne _ _ _ hqj]
    · rw [if_neg hs]
      have hs1 : s = -1 := by
        rcases hmem s (List.mem_cons_self _ _) with h | ⟨j, hj, rfl⟩
        · exact h
        · simp [bne_iff_ne] at hs
      rw [ih t (fun x hx => hmem x (List.mem_cons_of_mem _ hx)) q hq]
      by_cases hqrest : Int.ofNat q ∈ rest
      · rw [if_pos hqrest, if_pos (List.mem_cons_of_mem _ hqrest)]
      · rw [if_neg hqrest, if_neg (by
          intro hmem2
          rcases List.mem_cons.mp hmem2 with h | h
          · exact ofNat_ne_neg_one q (hs1 ▸ h)
          · exact hqrest h)]

lemma commit_foldl_length (v : Int) (slots t : List Int) :
    (slots.foldl (fun t2 s => if s != -1 then t2.set s.toNat v else t2) t).length
      = t.length := by
  induction slots generalizing t with
  | nil => rfl
  | cons s rest ih =>
    rw [List.foldl_cons, ih]
    split <;> simp

lemma commitTemp_getD (slots temp : List Int)
    (hmem : ∀ x ∈ slots, x = -1 ∨ ∃ j, j < temp.length ∧ x = Int.ofNat j)
    (q : Nat) (hq : q < temp.length) :
    (commitTemp slots temp).getD q 0 = if Int.ofNat q ∈ slots then 2 else temp.getD q 0 :=
  commit_foldl_getD 2 0 slots temp hmem q hq

lemma commitSched_getD (slots sched : List Int) (clk : Int)
    (hmem : ∀ x ∈ slots, x = -1 ∨ ∃ j, j < sched.length ∧ x = Int.ofNat j)
    (q : Nat) (hq : q < sched.length) :
    (commitSched slots sched clk).getD q (-1) =
      if Int.ofNat q ∈ slots then clk else sched.getD q (-1) :=
  commit_foldl_getD clk (-1) slots sched hmem q hq

lemma commitTemp_length (slots temp : List Int) :
    (commitTemp slots temp).length = temp.length :=
  commit_foldl_length 2 slots temp

lemma commitSched_length (slots sched : List Int) (clk : Int) :
    (commitSched slots sched clk).length = sched.length :=
  commit_foldl_length clk slots sched

lemma readyStep_length (ops : List ScheduleOperation) (r : List Int) :
    (readyStep ops r).length = ops.length := by
  unfold readyStep; simp

lemma readyStep_getD (ops : List ScheduleOperation) (r : List Int) {i : Nat}
    (hi : i < ops.length) :
    (readyStep ops r).getD i 0 =
      if r.getD i 0 != 0 then r.getD i 0
      else if readyCond r (opAt ops i) then 1
      else r.getD i 0 := by
  unfold readyStep
  exact getD_map_range _ hi 0

/-- The readiness condition holds exactly when each operand is an external
input or already executed. -/
lemma readyCond_iff (r : List Int) (op : ScheduleOperation) :
    readyCond r op = true ↔
      (op.index1 = -1 ∨ r.getD op.index1.toNat 0 = 2) ∧
      (op.index2 = -1 ∨ r.getD op.index2.toNat 0 = 2) := by
  simp only [readyCond, Bool.or_eq_true, Bool.and_eq_true, beq_iff_eq, bne_iff_ne]
  tauto

lemma getD_of_length_le {α : Type} {l : List α} {i : Nat} (h : l.length ≤ i) (d : α) :
    l.getD i d = d := by
  simp [List.getD_eq_getElem?_getD, List.getElem?_eq_none h]

lemma prioCycle_eq (ops : List ScheduleOperation) (pr : List Int) (nm na : Int)
    (clk : Int) (st : PState) :
    prioCycle ops pr nm na clk st =
      ⟨commitTemp (fillSlots ops pr (readyStep ops st.ready) '*' nm.toNat)
         (commitTemp (fillSlots ops pr (readyStep ops st.ready) '+' na.toNat)
           (readyStep ops st.ready)),
       commitSched (fillSlots ops pr (readyStep ops st.ready) '*' nm.toNat)
         (commitSched (fillSlots ops pr (readyStep ops st.ready) '+' na.toNat) st.sched clk)
         clk⟩ := rfl

/-! ## The list-scheduler state invariant -/

/-- Invariant of the `priority_scheduling` main loop at a cycle boundary:
the status vector holds only the codes `0/1/2`, `2` means scheduled, schedule
entries lie in `[1, k]`, readiness implies the dependencies are executed,
scheduled operations are scheduled strictly after their dependencies, and
every scheduled operation sits in the slot vector of its class for its
cycle. -/
structure Inv (ops : List ScheduleOperation) (pr : List Int) (nm na : Int) (k : Nat) :
    Prop where
  rlen : (readyAt ops pr nm na k).length = ops.length
  slen : (schedAt ops pr nm na k).length = ops.length
  rvals : ∀ i < ops.length, (readyAt ops pr nm na k).getD i 0 = 0 ∨
    (readyAt ops pr nm na k).getD i 0 = 1 ∨ (readyAt ops pr nm na k).getD i 0 = 2
  rdone : ∀ i < ops.length, ((readyAt ops pr nm na k).getD i 0 = 2 ↔
    (schedAt ops pr nm na k).getD i (-1) ≠ -1)
  sbound : ∀ i < ops.length, (schedAt ops pr nm na k).getD i (-1) ≠ -1 →
    1 ≤ (schedAt ops pr nm na k).getD i (-1) ∧
    (schedAt ops pr nm na k).getD i (-1) ≤ (k : Int)
  rdeps : ∀ i < ops.length, (readyAt ops pr nm na k).getD i 0 ≠ 0 →
    ∀ j, isDep ops i j → (readyAt ops pr nm na k).getD j 0 = 2
  sdeps : ∀ i < ops.length, ∀ j, isDep ops i j →
    (schedAt ops pr nm na k).getD i (-1) ≠ -1 →
    (schedAt ops pr nm na k).getD j (-1) ≠ -1 ∧
    (schedAt ops pr nm na k).getD j (-1) < (schedAt ops pr nm na k).getD i (-1)

lemma Inv_zero (ops : List ScheduleOperation) (pr : List Int) (nm na : Int) :
    Inv ops pr nm na 0 := by
  have hr : ∀ i < ops.length, (readyAt ops pr nm na 0).getD i 0 = 0 := by
    intro i hi
    unfold readyAt stAfter
    exact getD_replicate _ _ hi
  have hs : ∀ i < ops.length, (schedAt ops pr nm na 0).getD i (-1) = -1 := by
    intro i hi
    unfold schedAt stAfter
    exact getD_replicate _ _ hi
  refine ⟨by unfold readyAt stAfter; simp, by unfold schedAt stAfter; simp,
    fun i hi => Or.inl (hr i hi), fun i hi => ?_, fun i hi hne => absurd (hs i hi) hne,
    fun i hi hne => absurd (hr i hi) hne, fun i hi j _ hne => absurd (hs i hi) hne⟩
  rw [hr i hi, hs i hi]
  constructor
  · intro h; exact absurd h (by omega)
  · intro h; exact absurd rfl h

/-- The post-scan readiness vector of cycle `k + 1`. -/
def ready1At (ops : List ScheduleOperation) (pr : List Int) (nm na : Int) (k : Nat) :
    List Int :=
  readyStep ops (readyAt ops pr nm na k)

section CycleLemmas

variable (ops : List ScheduleOperation) (pr : List Int) (nm na : Int) (k : Nat)

lemma ready1At_len : (ready1At ops pr nm na k).length = ops.length :=
  readyStep_length ops _

lemma readyAt_succ :
    readyAt ops pr nm na (k + 1) =
      commitTemp (slotsAt ops pr nm na '*' nm k)
        (commitTemp (slotsAt ops pr nm na '+' na k) (ready1At ops pr nm na k)) := rfl

lemma schedAt_succ :
    schedAt ops pr nm na (k + 1) =
      commitSched (slotsAt ops pr nm na '*' nm k)
        (commitSched (slotsAt ops pr nm na '+' na k) (schedAt ops pr nm na k)
          ((k : Int) + 1)) ((k : Int) + 1) := rfl

lemma ready1At_two (h : Inv ops pr nm na k) :
    ∀ j, (ready1At ops pr nm na k).getD j 0 = 2 ↔ (readyAt ops pr nm na k).getD j 0 = 2 := by
  intro j
  by_cases hj : j < ops.length
  · rcases h.rvals j hj with h0 | h0 | h0
    · rw [show ready1At ops pr nm na k = readyStep ops (readyAt ops pr nm na k) from rfl,
        readyStep_getD ops _ hj, h0, if_neg (by decide)]
      constructor
      · intro hx
        split at hx <;> omega
      · intro hx
        omega
    · rw [show ready1At ops pr nm na k = readyStep ops (readyAt ops pr nm na k) from rfl,
        readyStep_getD ops _ hj, h0, if_pos (by decide)]
    · rw [show ready1At ops pr nm na k = readyStep ops (readyAt ops pr nm na k) from rfl,
        readyStep_getD ops _ hj, h0, if_pos (by decide)]
  · have e1 : (ready1At ops pr nm na k).getD j 0 = 0 :=
      getD_of_length_le (by rw [ready1At_len]; omega) 0
    have e2 : (readyAt ops pr nm na k).getD j 0 = 0 :=
      getD_of_length_le (by rw [h.rlen]; omega) 0
    rw [e1, e2]

lemma ready1At_vals (h : Inv ops pr nm na k) :
    ∀ i < ops.length, (ready1At ops pr nm na k).getD i 0 = 0 ∨
      (ready1At ops pr nm na k).getD i 0 = 1 ∨ (ready1At ops pr nm na k).getD i 0 = 2 := by
  intro i hi
  rw [show ready1At ops pr nm na k = readyStep ops (readyAt ops pr nm na k) from rfl,
    readyStep_getD ops _ hi]
  rcases h.rvals i hi with h0 | h0 | h0
  · rw [h0, if_neg (by decide)]
    split
    · right; left; rfl
    · left; rfl
  · rw [h0, if_pos (by decide)]
    right; left; rfl
  · rw [h0, if_pos (by decide)]
    right; right; rfl

lemma ready1At_one_deps (h : Inv ops pr nm na k) :
    ∀ i < ops.length, (ready1At ops pr nm na k).getD i 0 = 1 →
      ∀ j, isDep ops i j → (readyAt ops pr nm na k).getD j 0 = 2 := by
  intro i hi h1 j hj
  rw [show ready1At ops pr nm na k = readyStep ops (readyAt ops pr nm na k) from rfl,
    readyStep_getD ops _ hi] at h1
  rcases h.rvals i hi with h0 | h0 | h0
  · rw [h0] at h1
    simp only [bne_self_eq_false, Bool.false_eq_true, if_false] at h1
    split at h1
    · next hcond =>
      obtain ⟨hc1, hc2⟩ := (readyCond_iff _ _).mp hcond
      rcases hj with hd | hd
      · rcases hc1 with he | he
        · exact absurd (hd ▸ he) (ofNat_ne_neg_one j)
        · rw [hd] at he
          exact he
      · rcases hc2 with he | he
        · exact absurd (hd ▸ he) (ofNat_ne_neg_one j)
        · rw [hd] at he
          exact he
    · exact absurd h1 (by omega)
  · exact h.rdeps i hi (by rw [h0]; omega) j hj
  · rw [h0] at h1
    simp only [bne_iff_ne] at h1
    rw [if_pos (by omega : (2 : Int) ≠ 0)] at h1
    exact absurd h1 (by omega)

lemma ready1At_one_unsched (h : Inv ops pr nm na k) :
    ∀ i, (ready1At ops pr nm na k).getD i 0 = 1 →
      (schedAt ops pr nm na k).getD i (-1) = -1 := by
  intro i h1
  by_cases hi : i < ops.length
  · have hne2 : (readyAt ops pr nm na k).getD i 0 ≠ 2 := by
      intro h2
      have := (ready1At_two ops pr nm na k h i).mpr h2
      omega
    have := h.rdone i hi
    by_contra hne
    exact hne2 (this.mpr hne)
  · rw [getD_of_length_le (by rw [ready1At_len]; omega) 0] at h1
    exact absurd h1 (by omega)

lemma ready1At_keeps_one (h : Inv ops pr nm na k) :
    ∀ i < ops.length, (readyAt ops pr nm na k).getD i 0 = 1 →
      (ready1At ops pr nm na k).getD i 0 = 1 := by
  intro i hi h1
  rw [show ready1At ops pr nm na k = readyStep ops (readyAt ops pr nm na k) from rfl,
    readyStep_getD ops _ hi, h1]
  simp

lemma ready1At_becomes (h : Inv ops pr nm na k) :
    ∀ i < ops.length, (readyAt ops pr nm na k).getD i 0 = 0 →
      readyCond (readyAt ops pr nm na k) (opAt ops i) = true →
      (ready1At ops pr nm na k).getD i 0 = 1 := by
  intro i hi h0 hcond
  rw [show ready1At ops pr nm na k = readyStep ops (readyAt ops pr nm na k) from rfl,
    readyStep_getD ops _ hi, h0]
  simp [hcond]

lemma slotsAt_mem (cls : Char) (cap : Int) :
    ∀ x ∈ slotsAt ops pr nm na cls cap k, x ≠ -1 →
      ∃ j < ops.length, x = Int.ofNat j ∧ (opAt ops j).type_op = cls ∧
        (ready1At ops pr nm na k).getD j 0 = 1 := by
  intro x hx hne
  exact fillSlots_mem ops pr _ cls cap.toNat hx hne

lemma slotsAt_commit_pre (cls : Char) (cap : Int) (L : Nat) (hL : ops.length ≤ L) :
    ∀ x ∈ slotsAt ops pr nm na cls cap k, x = -1 ∨ ∃ j, j < L ∧ x = Int.ofNat j := by
  intro x hx
  by_cases hne : x = -1
  · exact Or.inl hne
  · obtain ⟨j, hj, hxe, _, _⟩ := slotsAt_mem ops pr nm na k cls cap x hx hne
    exact Or.inr ⟨j, by omega, hxe⟩

lemma mem_slotsAt_props (cls : Char) (cap : Int) :
    ∀ q : Nat, Int.ofNat q ∈ slotsAt ops pr nm na cls cap k →
      q < ops.length ∧ (opAt ops q).type_op = cls ∧
        (ready1At ops pr nm na k).getD q 0 = 1 := by
  intro q hq
  obtain ⟨j, hj, hxe, ht, hr⟩ :=
    slotsAt_mem ops pr nm na k cls cap _ hq (ofNat_ne_neg_one q)
  have hqj : q = j := Int.ofNat.inj hxe
  exact ⟨hqj ▸ hj, hqj ▸ ht, hqj ▸ hr⟩

lemma readyAt_succ_len : (readyAt ops pr nm na (k + 1)).length = ops.length := by
  rw [readyAt_succ, commitTemp_length, commitTemp_length, ready1At_len]

lemma schedAt_succ_len (h : Inv ops pr nm na k) :
    (schedAt ops pr nm na (k + 1)).length = ops.length := by
  rw [schedAt_succ, commitSched_length, commitSched_length, h.slen]

lemma readyAt_succ_getD (h : Inv ops pr nm na k) :
    ∀ q < ops.length, (readyAt ops pr nm na (k + 1)).getD q 0 =
      if Int.ofNat q ∈ slotsAt ops pr nm na '+' na k ∨
          Int.ofNat q ∈ slotsAt ops pr nm na '*' nm k then 2
      else (ready1At ops pr nm na k).getD q 0 := by
  intro q hq
  have hlen1 : (commitTemp (slotsAt ops pr nm na '+' na k)
      (ready1At ops pr nm na k)).length = ops.length := by
    rw [commitTemp_length, ready1At_len]
  rw [readyAt_succ,
    commitTemp_getD _ _ (slotsAt_commit_pre ops pr nm na k '*' nm _ (by omega))
      q (by omega),
    commitTemp_getD _ _ (slotsAt_commit_pre ops pr nm na k '+' na _
      (by rw [ready1At_len])) q (by rw [ready1At_len]; omega)]
  by_cases h1 : Int.ofNat q ∈ slotsAt ops pr nm na '+' na k
  · by_cases h2 : Int.ofNat q ∈ slotsAt ops pr nm na '*' nm k
    · rw [if_pos h2, if_pos (Or.inl h1)]
    · rw [if_neg h2, if_pos h1, if_pos (Or.inl h1)]
  · by_cases h2 : Int.ofNat q ∈ slotsAt ops pr nm na '*' nm k
    · rw [if_pos h2, if_pos (Or.inr h2)]
    · rw [if_neg h2, if_neg h1, if_neg (by tauto)]

lemma schedAt_succ_getD (h : Inv ops pr nm na k) :
    ∀ q < ops.length, (schedAt ops pr nm na (k + 1)).getD q (-1) =
      if Int.ofNat q ∈ slotsAt ops pr nm na '+' na k ∨
          Int.ofNat q ∈ slotsAt ops pr nm na '*' nm k then (k : Int) + 1
      else (schedAt ops pr nm na k).getD q (-1) := by
  intro q hq
  have hlen1 : (commitSched (slotsAt ops pr nm na '+' na k)
      (schedAt ops pr nm na k) ((k : Int) + 1)).length = ops.length := by
    rw [commitSched_length, h.slen]
  rw [schedAt_succ,
    commitSched_getD _ _ _ (slotsAt_commit_pre ops pr nm na k '*' nm _ (by omega))
      q (by omega),
    commitSched_getD _ _ _ (slotsAt_commit_pre ops pr nm na k '+' na _
      (by rw [h.slen])) q (by rw [h.slen]; omega)]
  by_cases h1 : Int.ofNat q ∈ slotsAt ops pr nm na '+' na k
  · by_cases h2 : Int.ofNat q ∈ slotsAt ops pr nm na '*' nm k
    · rw [if_pos h2, if_pos (Or.inl h1)]
    · rw [if_neg h2, if_pos h1, if_pos (Or.inl h1)]
  · by_cases h2 : Int.ofNat q ∈ slotsAt ops pr nm na '*' nm k
    · rw [if_pos h2, if_pos (Or.inr h2)]
    · rw [if_neg h2, if_neg h1, if_neg (by tauto)]

lemma sched_stable_step (h : Inv ops pr nm na k) :
    ∀ i < ops.length, (schedAt ops pr nm na k).getD i (-1) ≠ -1 →
      (schedAt ops pr nm na (k + 1)).getD i (-1) =
        (schedAt ops pr nm na k).getD i (-1) := by
  intro i hi hne
  rw [schedAt_succ_getD ops pr nm na k h i hi]
  rw [if_neg ?_]
  rintro (hm | hm)
  · exact hne ((ready1At_one_unsched ops pr nm na k h i
      (mem_slotsAt_props ops pr nm na k '+' na i hm).2.2))
  · exact hne ((ready1At_one_unsched ops pr nm na k h i
      (mem_slotsAt_props ops pr nm na k '*' nm i hm).2.2))

lemma sched_new (h : Inv ops pr nm na k) :
    ∀ i < ops.length, (schedAt ops pr nm na k).getD i (-1) = -1 →
      (schedAt ops pr nm na (k + 1)).getD i (-1) ≠ -1 →
      (schedAt ops pr nm na (k + 1)).getD i (-1) = (k : Int) + 1 ∧
      (((opAt ops i).type_op = '+' ∧ Int.ofNat i ∈ slotsAt ops pr nm na '+' na k) ∨
       ((opAt ops i).type_op = '*' ∧ Int.ofNat i ∈ slotsAt ops pr nm na '*' nm k)) := by
  intro i hi hold hnew
  rw [schedAt_succ_getD ops pr nm na k h i hi] at hnew ⊢
  by_cases hm : Int.ofNat i ∈ slotsAt ops pr nm na '+' na k ∨
      Int.ofNat i ∈ slotsAt ops pr nm na '*' nm k
  · refine ⟨by rw [if_pos hm], ?_⟩
    rcases hm with hm | hm
    · exact Or.inl ⟨(mem_slotsAt_props ops pr nm na k '+' na i hm).2.1, hm⟩
    · exact Or.inr ⟨(mem_slotsAt_props ops pr nm na k '*' nm i hm).2.1, hm⟩
  · rw [if_neg hm] at hnew
    exact absurd hold hnew

lemma Inv_step (h : Inv ops pr nm na k) : Inv ops pr nm na (k + 1) := by
  have hmem1 : ∀ q : Nat, (Int.ofNat q ∈ slotsAt ops pr nm na '+' na k ∨
      Int.ofNat q ∈ slotsAt ops pr nm na '*' nm k) →
      q < ops.length ∧ (ready1At ops pr nm na k).getD q 0 = 1 := by
    intro q hq
    rcases hq with hq | hq
    · obtain ⟨h1, _, h3⟩ := mem_slotsAt_props ops pr nm na k '+' na q hq
      exact ⟨h1, h3⟩
    · obtain ⟨h1, _, h3⟩ := mem_slotsAt_props ops pr nm na k '*' nm q hq
      exact ⟨h1, h3⟩
  have hR2toT2 : ∀ j, (readyAt ops pr nm na k).getD j 0 = 2 →
      (readyAt ops pr nm na (k + 1)).getD j 0 = 2 := by
    intro j hj2
    have hj : j < ops.length := by
      by_contra hc
      rw [getD_of_length_le (by rw [h.rlen]; omega) 0] at hj2
      omega
    rw [readyAt_succ_getD ops pr nm na k h j hj]
    split
    · rfl
    · exact (ready1At_two ops pr nm na k h j).mpr hj2
  have hSkeep : ∀ j, (schedAt ops pr nm na k).getD j (-1) ≠ -1 →
      (schedAt ops pr nm na (k + 1)).getD j (-1) =
        (schedAt ops pr nm na k).getD j (-1) := by
    intro j hj2
    have hj : j < ops.length := by
      by_contra hc
      rw [getD_of_length_le (by rw [h.slen]; omega) (-1)] at hj2
      exact hj2 rfl
    exact sched_stable_step ops pr nm na k h j hj hj2
  refine ⟨readyAt_succ_len ops pr nm na k, schedAt_succ_len ops pr nm na k h,
    ?_, ?_, ?_, ?_, ?_⟩
  · -- rvals
    intro i hi
    rw [readyAt_succ_getD ops pr nm na k h i hi]
    split
    · right; right; rfl
    · exact ready1At_vals ops pr nm na k h i hi
  · -- rdone
    intro i hi
    rw [readyAt_succ_getD ops pr nm na k h i hi, schedAt_succ_getD ops pr nm na k h i hi]
    split
    · constructor
      · intro _
        omega
      · intro _
        rfl
    · rw [ready1At_two ops pr nm na k h i]
      exact h.rdone i hi
  · -- sbound
    intro i hi hne
    rw [schedAt_succ_getD ops pr nm na k h i hi] at hne ⊢
    split
    · push_cast
      omega
    · next hm =>
      rw [if_neg hm] at hne
      have := h.sbound i hi hne
      push_cast
      omega
  · -- rdeps
    intro i hi hne j hj
    have hRj2 : (readyAt ops pr nm na k).getD j 0 = 2 → True := fun _ => trivial
    rw [readyAt_succ_getD ops pr nm na k h i hi] at hne
    have hdep2 : (readyAt ops pr nm na k).getD j 0 = 2 := by
      by_cases hm : Int.ofNat i ∈ slotsAt ops pr nm na '+' na k ∨
          Int.ofNat i ∈ slotsAt ops pr nm na '*' nm k
      · exact ready1At_one_deps ops pr nm na k h i hi (hmem1 i hm).2 j hj
      · rw [if_neg hm] at hne
        rcases ready1At_vals ops pr nm na k h i hi with h0 | h0 | h0
        · exact absurd h0 hne
        · exact ready1At_one_deps ops pr nm na k h i hi h0 j hj
        · have hRi2 := (ready1At_two ops pr nm na k h i).mp h0
          exact h.rdeps i hi (by rw [hRi2]; omega) j hj
    exact hR2toT2 j hdep2
  · -- sdeps
    intro i hi j hj hne
    have hnew := hne
    rw [schedAt_succ_getD ops pr nm na k h i hi] at hnew
    by_cases hm : Int.ofNat i ∈ slotsAt ops pr nm na '+' na k ∨
        Int.ofNat i ∈ slotsAt ops pr nm na '*' nm k
    · -- scheduled this cycle
      have hRj2 : (readyAt ops pr nm na k).getD j 0 = 2 :=
        ready1At_one_deps ops pr nm na k h i hi (hmem1 i hm).2 j hj
      have hjlt : j < ops.length := by
        by_contra hc
        rw [getD_of_length_le (by rw [h.rlen]; omega) 0] at hRj2
        omega
      have hSj : (schedAt ops pr nm na k).getD j (-1) ≠ -1 := (h.rdone j hjlt).mp hRj2
      have hkeep := hSkeep j hSj
      have hbound := h.sbound j hjlt hSj
      rw [schedAt_succ_getD ops pr nm na k h i hi, if_pos hm, hkeep]
      refine ⟨hSj, ?_⟩
      omega
    · rw [schedAt_succ_getD ops pr nm na k h i hi, if_neg hm] at hne ⊢
      obtain ⟨hSj, hlt⟩ := h.sdeps i hi j hj hne
      rw [hSkeep j hSj]
      exact ⟨hSj, hlt⟩

lemma Inv_all : ∀ k, Inv ops pr nm na k := by
  intro k
  induction k with
  | zero => exact Inv_zero ops pr nm na
  | succ k ih => exact Inv_step ops pr nm na k ih

lemma sched_stable_ge :
    ∀ k m, ∀ i < ops.length, (schedAt ops pr nm na k).getD i (-1) ≠ -1 →
      (schedAt ops pr nm na (k + m)).getD i (-1) =
        (schedAt ops pr nm na k).getD i (-1) := by
  intro k m
  induction m with
  | zero => intro i hi _; rfl
  | succ m ih =>
    intro i hi hne
    have hprev := ih i hi hne
    have hprevne : (schedAt ops pr nm na (k + m)).getD i (-1) ≠ -1 := by
      rw [hprev]; exact hne
    rw [show k + (m + 1) = (k + m) + 1 from rfl,
      sched_stable_step ops pr nm na (k + m) (Inv_all ops pr nm na (k + m)) i hi hprevne,
      hprev]

/-- A scheduled operation keeps, through later cycles, the cycle at which it
was first scheduled; unwinding to that first cycle. -/
lemma first_sched :
    ∀ m, ∀ i < ops.length, (schedAt ops pr nm na m).getD i (-1) ≠ -1 →
      ∃ k < m, (schedAt ops pr nm na k).getD i (-1) = -1 ∧
        (schedAt ops pr nm na (k + 1)).getD i (-1) ≠ -1 ∧
        (schedAt ops pr nm na m).getD i (-1) =
          (schedAt ops pr nm na (k + 1)).getD i (-1) := by
  intro m
  induction m with
  | zero =>
    intro i hi hne
    exfalso
    exact hne (by unfold schedAt stAfter; exact getD_replicate _ _ hi)
  | succ m ih =>
    intro i hi hne
    by_cases hm : (schedAt ops pr nm na m).getD i (-1) ≠ -1
    · obtain ⟨k, hk, h1, h2, h3⟩ := ih i hi hm
      refine ⟨k, by omega, h1, h2, ?_⟩
      rw [sched_stable_step ops pr nm na m (Inv_all ops pr nm na m) i hi hm, h3]
    · push_neg at hm
      exact ⟨m, by omega, hm, hne, rfl⟩

/-- While any operation is unscheduled, each cycle schedules at least one
more (given positive capacities, well-typed operations and an acyclic,
in-range dependency graph). -/
lemma cycle_progress (rank : Nat → Nat) (hin : InRange ops)
    (hrank : RankAcyclic ops rank)
    (htype : ∀ i < ops.length, (opAt ops i).type_op = '+' ∨ (opAt ops i).type_op = '*')
    (hna : 1 ≤ na) (hnm : 1 ≤ nm)
    (hex : ∃ i < ops.length, (schedAt ops pr nm na k).getD i (-1) = -1) :
    ∃ j < ops.length, (schedAt ops pr nm na k).getD j (-1) = -1 ∧
      (schedAt ops pr nm na (k + 1)).getD j (-1) ≠ -1 := by
  have h := Inv_all ops pr nm na k
  classical
  set U : Finset Nat := (Finset.range ops.length).filter
    (fun i => (schedAt ops pr nm na k).getD i (-1) = -1) with hU
  have hUne : U.Nonempty := by
    obtain ⟨i, hi, hs⟩ := hex
    exact ⟨i, Finset.mem_filter.mpr ⟨Finset.mem_range.mpr hi, hs⟩⟩
  obtain ⟨i, hiU, hmin⟩ := Finset.exists_min_image U rank hUne
  have hiprops := Finset.mem_filter.mp hiU
  have hin' : i < ops.length := Finset.mem_range.mp hiprops.1
  have hiS : (schedAt ops pr nm na k).getD i (-1) = -1 := hiprops.2
  -- all dependencies of the rank-minimal unscheduled operation are scheduled
  have hdeps : ∀ j, isDep ops i j → (schedAt ops pr nm na k).getD j (-1) ≠ -1 := by
    intro j hj
    have hjn : j < ops.length := by
      rcases hj with hd | hd
      · rcases (hin i hin').1 with he | ⟨he1, he2⟩
        · exact absurd (hd ▸ he) (ofNat_ne_neg_one j)
        · rw [hd, Int.ofNat_eq_natCast] at he2
          exact_mod_cast he2
      · rcases (hin i hin').2 with he | ⟨he1, he2⟩
        · exact absurd (hd ▸ he) (ofNat_ne_neg_one j)
        · rw [hd, Int.ofNat_eq_natCast] at he2
          exact_mod_cast he2
    have hrj : rank j < rank i := hrank i hin' j hjn hj
    intro hjS
    have hjU : j ∈ U := Finset.mem_filter.mpr ⟨Finset.mem_range.mpr hjn, hjS⟩
    exact absurd (hmin j hjU) (by omega)
  -- hence it is ready after the scan
  have hready1 : (ready1At ops pr nm na k).getD i 0 = 1 := by
    have hnot2 : (readyAt ops pr nm na k).getD i 0 ≠ 2 := by
      intro h2
      exact absurd ((h.rdone i hin').mp h2) (by rw [hiS]; exact fun hc => hc rfl)
    rcases h.rvals i hin' with h0 | h0 | h0
    · refine ready1At_becomes ops pr nm na k h i hin' h0 ?_
      rw [readyCond_iff]
      constructor
      · by_cases hd : (opAt ops i).index1 = -1
        · exact Or.inl hd
        · right
          rcases (hin i hin').1 with he | ⟨he1, he2⟩
          · exact absurd he hd
          · have hlt : (opAt ops i).index1.toNat < ops.length := by omega
            have hform : (opAt ops i).index1 = Int.ofNat (opAt ops i).index1.toNat := by
              rw [Int.ofNat_eq_natCast, Int.toNat_of_nonneg he1]
            have hdep : isDep ops i (opAt ops i).index1.toNat := Or.inl hform
            exact (h.rdone _ hlt).mpr (hdeps _ hdep)
      · by_cases hd : (opAt ops i).index2 = -1
        · exact Or.inl hd
        · right
          rcases (hin i hin').2 with he | ⟨he1, he2⟩
          · exact absurd he hd
          · have hlt : (opAt ops i).index2.toNat < ops.length := by omega
            have hform : (opAt ops i).index2 = Int.ofNat (opAt ops i).index2.toNat := by
              rw [Int.ofNat_eq_natCast, Int.toNat_of_nonneg he1]
            have hdep : isDep ops i (opAt ops i).index2.toNat := Or.inr hform
            exact (h.rdone _ hlt).mpr (hdeps _ hdep)
    · exact ready1At_keeps_one ops pr nm na k h i hin' h0
    · exact absurd h0 hnot2
  -- a slot of its class gets filled, scheduling some operation this cycle
  rcases htype i hin' with hcls | hcls
  · have hprog := fillSlots_progress ops pr (ready1At ops pr nm na k) '+' na.toNat
      (by omega) ⟨i, hin', hcls, hready1⟩
    have h0lt : 0 < (slotsAt ops pr nm na '+' na k).length := by
      rw [show slotsAt ops pr nm na '+' na k =
        fillSlots ops pr (ready1At ops pr nm na k) '+' na.toNat from rfl, fillSlots_length]
      omega
    have hx : (slotsAt ops pr nm na '+' na k).getD 0 (-1) ∈
        slotsAt ops pr nm na '+' na k := mem_of_getD h0lt rfl
    obtain ⟨j0, hj0, hxe, ht0, hr0⟩ := slotsAt_mem ops pr nm na k '+' na _ hx hprog
    have hj0S : (schedAt ops pr nm na k).getD j0 (-1) = -1 :=
      ready1At_one_unsched ops pr nm na k h j0 hr0
    refine ⟨j0, hj0, hj0S, ?_⟩
    rw [schedAt_succ_getD ops pr nm na k h j0 hj0, if_pos (Or.inl (hxe ▸ hx))]
    omega
  · have hprog := fillSlots_progress ops pr (ready1At ops pr nm na k) '*' nm.toNat
      (by omega) ⟨i, hin', hcls, hready1⟩
    have h0lt : 0 < (slotsAt ops pr nm na '*' nm k).length := by
      rw [show slotsAt ops pr nm na '*' nm k =
        fillSlots ops pr (ready1At ops pr nm na k) '*' nm.toNat from rfl, fillSlots_length]
      omega
    have hx : (slotsAt ops pr nm na '*' nm k).getD 0 (-1) ∈
        slotsAt ops pr nm na '*' nm k := mem_of_getD h0lt rfl
    obtain ⟨j0, hj0, hxe, ht0, hr0⟩ := slotsAt_mem ops pr nm na k '*' nm _ hx hprog
    have hj0S : (schedAt ops pr nm na k).getD j0 (-1) = -1 :=
      ready1At_one_unsched ops pr nm na k h j0 hr0
    refine ⟨j0, hj0, hj0S, ?_⟩
    rw [schedAt_succ_getD ops pr nm na k h j0 hj0, if_pos (Or.inr (hxe ▸ hx))]
    omega

end CycleLemmas

/-- The set of still-unscheduled operations at the cycle-`k` boundary. -/
def unschedSet (ops : List ScheduleOperation) (pr : List Int) (nm na : Int) (k : Nat) :
    Finset Nat :=
  (Finset.range ops.length).filter
    (fun i => (schedAt ops pr nm na k).getD i (-1) = -1)

section Termination

variable (ops : List ScheduleOperation) (pr : List Int) (nm na : Int)

lemma unschedSet_subset (k : Nat) :
    unschedSet ops pr nm na (k + 1) ⊆ unschedSet ops pr nm na k := by
  intro i hi
  obtain ⟨hr, hs⟩ := Finset.mem_filter.mp hi
  refine Finset.mem_filter.mpr ⟨hr, ?_⟩
  by_contra hc
  have := sched_stable_step ops pr nm na k (Inv_all ops pr nm na k) i
    (Finset.mem_range.mp hr) hc
  rw [this] at hs
  exact hc hs

lemma unschedSet_decrease (k : Nat) (rank : Nat → Nat) (hin : InRange ops)
    (hrank : RankAcyclic ops rank)
    (htype : ∀ i < ops.length, (opAt ops i).type_op = '+' ∨ (opAt ops i).type_op = '*')
    (hna : 1 ≤ na) (hnm : 1 ≤ nm)
    (hne : (unschedSet ops pr nm na k).Nonempty) :
    (unschedSet ops pr nm na (k + 1)).card < (unschedSet ops pr nm na k).card := by
  obtain ⟨i0, hi0⟩ := hne
  obtain ⟨hr0, hs0⟩ := Finset.mem_filter.mp hi0
  obtain ⟨j, hj, hjold, hjnew⟩ := cycle_progress ops pr nm na k rank hin hrank htype
    hna hnm ⟨i0, Finset.mem_range.mp hr0, hs0⟩
  apply Finset.card_lt_card
  rw [Finset.ssubset_iff_of_subset (unschedSet_subset ops pr nm na k)]
  refine ⟨j, Finset.mem_filter.mpr ⟨Finset.mem_range.mpr hj, hjold⟩, ?_⟩
  intro hmem
  exact hjnew (Finset.mem_filter.mp hmem).2

lemma unschedSet_bound (rank : Nat → Nat) (hin : InRange ops)
    (hrank : RankAcyclic ops rank)
    (htype : ∀ i < ops.length, (opAt ops i).type_op = '+' ∨ (opAt ops i).type_op = '*')
    (hna : 1 ≤ na) (hnm : 1 ≤ nm) :
    ∀ k, (unschedSet ops pr nm na k).card ≤ ops.length - k := by
  intro k
  induction k with
  | zero =>
    calc (unschedSet ops pr nm na 0).card
        ≤ (Finset.range ops.length).card := Finset.card_filter_le _ _
      _ = ops.length := Finset.card_range _
  | succ k ih =>
    by_cases hne : (unschedSet ops pr nm na k).Nonempty
    · have := unschedSet_decrease ops pr nm na k rank hin hrank htype hna hnm hne
      omega
    · rw [Finset.not_nonempty_iff_eq_empty] at hne
      have hsub := unschedSet_subset ops pr nm na k
      rw [hne, Finset.subset_empty] at hsub
      rw [hsub]
      simp

lemma unschedSet_empty_all_sched (k : Nat)
    (hemp : unschedSet ops pr nm na k = ∅) :
    ∀ i < ops.length, (schedAt ops pr nm na k).getD i (-1) ≠ -1 := by
  intro i hi hs
  have : i ∈ unschedSet ops pr nm na k :=
    Finset.mem_filter.mpr ⟨Finset.mem_range.mpr hi, hs⟩
  rw [hemp] at this
  exact absurd this (Finset.not_mem_empty i)

lemma allDone_of_all_sched (k : Nat)
    (hall : ∀ i < ops.length, (schedAt ops pr nm na k).getD i (-1) ≠ -1) :
    allDone (readyAt ops pr nm na k) = true := by
  have h := Inv_all ops pr nm na k
  unfold allDone
  rw [List.all_eq_true]
  intro x hx
  rcases List.mem_iff_getElem.mp hx with ⟨q, hq, hval⟩
  have hqn : q < ops.length := by
    have := h.rlen
    omega
  have : (readyAt ops pr nm na k).getD q 0 = 2 :=
    (h.rdone q hqn).mpr (hall q hqn)
  rw [getD_eq_getElem _ _ _ hq] at this
  rw [beq_iff_eq]
  rw [← hval, this]

/-- Relates the fueled loop of `priority_scheduling` to the cycle-indexed
state: the loop stops at the first all-done boundary, or after exhausting its
fuel. -/
lemma prioLoop_stAfter :
    ∀ (fuel k : Nat),
      ∃ m ≤ fuel,
        prioLoop ops pr nm na (stAfter ops pr nm na k) ((k : Int) + 1) fuel =
          schedAt ops pr nm na (k + m) ∧
        (allDone (readyAt ops pr nm na (k + m)) = true ∨ m = fuel) := by
  intro fuel
  induction fuel with
  | zero =>
    intro k
    exact ⟨0, le_refl 0, rfl, Or.inr rfl⟩
  | succ fuel ih =>
    intro k
    have hcyc : prioCycle ops pr nm na ((k : Int) + 1) (stAfter ops pr nm na k) =
        stAfter ops pr nm na (k + 1) := rfl
    have hunfold : prioLoop ops pr nm na (stAfter ops pr nm na k) ((k : Int) + 1)
        (fuel + 1) =
        if allDone (stAfter ops pr nm na (k + 1)).ready = true
        then (stAfter ops pr nm na (k + 1)).sched
        else prioLoop ops pr nm na (stAfter ops pr nm na (k + 1))
          (((k : Int) + 1) + 1) fuel := by
      rw [show prioLoop ops pr nm na (stAfter ops pr nm na k) ((k : Int) + 1) (fuel + 1) =
        (if allDone (prioCycle ops pr nm na ((k : Int) + 1)
            (stAfter ops pr nm na k)).ready = true
         then (prioCycle ops pr nm na ((k : Int) + 1) (stAfter ops pr nm na k)).sched
         else prioLoop ops pr nm na
           (prioCycle ops pr nm na ((k : Int) + 1) (stAfter ops pr nm na k))
           (((k : Int) + 1) + 1) fuel) from rfl, hcyc]
    rw [hunfold]
    by_cases hd : allDone (stAfter ops pr nm na (k + 1)).ready = true
    · rw [if_pos hd]
      exact ⟨1, by omega, rfl, Or.inl hd⟩
    · rw [if_neg hd]
      obtain ⟨m, hm, heq, hdone⟩ := ih (k + 1)
      have harith : ((k : Int) + 1) + 1 = (((k + 1 : Nat) : Int)) + 1 := by push_cast; ring
      refine ⟨m + 1, by omega, ?_, ?_⟩
      · rw [harith, heq, show k + (m + 1) = (k + 1) + m from by omega]
      · rcases hdone with hx | hx
        · left
          rw [show k + (m + 1) = (k + 1) + m from by omega]
          exact hx
        · right
          omega

end Termination

/-- `priority_scheduling` is the state of some cycle boundary `m ≤ N`:
either the all-done early exit fired at `m`, or the loop ran all `N`
cycles. -/
lemma priority_scheduling_run (ops : List ScheduleOperation) (asap alap : List Int)
    (nm na : Int) :
    ∃ m ≤ ops.length,
      priority_scheduling ops asap alap nm na =
        schedAt ops (priority_function asap alap ops.length) nm na m ∧
      (allDone (readyAt ops (priority_function asap alap ops.length) nm na m) = true ∨
        m = ops.length) := by
  obtain ⟨m, hm, heq, hdone⟩ :=
    prioLoop_stAfter ops (priority_function asap alap ops.length) nm na ops.length 0
  rw [show (((0 : Nat) : Int) + 1) = (1 : Int) from by norm_num] at heq
  rw [Nat.zero_add] at heq hdone
  exact ⟨m, hm, heq, hdone⟩

/-- Under positive capacities and an acyclic in-range dependency graph with
well-typed operations, the run ends with every operation scheduled. -/
lemma priority_scheduling_final_facts (ops : List ScheduleOperation)
    (asap alap : List Int) (nm na : Int) (rank : Nat → Nat)
    (hin : InRange ops) (hrank : RankAcyclic ops rank)
    (htype : ∀ i < ops.length, (opAt ops i).type_op = '+' ∨ (opAt ops i).type_op = '*')
    (hna : 1 ≤ na) (hnm : 1 ≤ nm) :
    ∃ m ≤ ops.length,
      priority_scheduling ops asap alap nm na =
        schedAt ops (priority_function asap alap ops.length) nm na m ∧
      (∀ i < ops.length,
        (schedAt ops (priority_function asap alap ops.length) nm na m).getD i (-1) ≠ -1) ∧
      allDone (readyAt ops (priority_function asap alap ops.length) nm na m) = true := by
  obtain ⟨m, hm, heq, hdone⟩ := priority_scheduling_run ops asap alap nm na
  have h := Inv_all ops (priority_function asap alap ops.length) nm na m
  have hallsched : ∀ i < ops.length,
      (schedAt ops (priority_function asap alap ops.length) nm na m).getD i (-1) ≠ -1 := by
    rcases hdone with hd | hd
    · intro i hi
      have hr2 : (readyAt ops (priority_function asap alap ops.length) nm na m).getD i 0
          = 2 := by
        unfold allDone at hd
        rw [List.all_eq_true] at hd
        have hmem : (readyAt ops (priority_function asap alap ops.length) nm na m).getD i 0
            ∈ readyAt ops (priority_function asap alap ops.length) nm na m :=
          mem_of_getD (by rw [h.rlen]; omega) rfl
        have := hd _ hmem
        rwa [beq_iff_eq] at this
      exact (h.rdone i hi).mp hr2
    · subst hd
      have hbound := unschedSet_bound ops (priority_function asap alap ops.length) nm na
        rank hin hrank htype hna hnm ops.length
      have hemp : unschedSet ops (priority_function asap alap ops.length) nm na
          ops.length = ∅ := Finset.card_eq_zero.mp (by omega)
      exact unschedSet_empty_all_sched ops (priority_function asap alap ops.length) nm na
        ops.length hemp
  exact ⟨m, hm, heq, hallsched,
    allDone_of_all_sched ops (priority_function asap alap ops.length) nm na m hallsched⟩

/-- The slot membership of a scheduled operation, at the cycle equal to its
final schedule value. -/
lemma sched_val_mem (ops : List ScheduleOperation) (pf : List Int) (nm na : Int)
    (m : Nat) (i : Nat) (hi : i < ops.length) (c : Int) (hc : c ≠ -1)
    (hval : (schedAt ops pf nm na m).getD i (-1) = c) :
    ((opAt ops i).type_op = '+' ∧
      Int.ofNat i ∈ slotsAt ops pf nm na '+' na (c.toNat - 1)) ∨
    ((opAt ops i).type_op = '*' ∧
      Int.ofNat i ∈ slotsAt ops pf nm na '*' nm (c.toNat - 1)) := by
  obtain ⟨k, hk, h1, h2, h3⟩ := first_sched ops pf nm na m i hi (by rw [hval]; exact hc)
  obtain ⟨hv, hmem⟩ := sched_new ops pf nm na k (Inv_all ops pf nm na k) i hi h1 h2
  have hck : c = (k : Int) + 1 := by rw [← hval, h3, hv]
  have hkk : c.toNat - 1 = k := by omega
  rw [hkk]
  exact hmem

/-- Counting bound: the operations of one class scheduled at one cycle inject
into the slot vector of that class and cycle. -/
lemma count_class_le (ops : List ScheduleOperation) (pf : List Int) (nm na : Int)
    (m : Nat) (cls : Char) (cap : Int) (c : Int)
    (hmem : ∀ i < ops.length, (opAt ops i).type_op = cls →
      (schedAt ops pf nm na m).getD i (-1) = c →
      Int.ofNat i ∈ slotsAt ops pf nm na cls cap (c.toNat - 1)) :
    ((Finset.range ops.length).filter (fun i => (opAt ops i).type_op = cls ∧
      (schedAt ops pf nm na m).getD i (-1) = c)).card ≤ cap.toNat := by
  classical
  have hsub : ∀ i ∈ (Finset.range ops.length).filter
      (fun i => (opAt ops i).type_op = cls ∧ (schedAt ops pf nm na m).getD i (-1) = c),
      Int.ofNat i ∈ (slotsAt ops pf nm na cls cap (c.toNat - 1)).toFinset := by
    intro i hi2
    have hthis := Finset.mem_filter.mp hi2
    exact List.mem_toFinset.mpr
      (hmem i (Finset.mem_range.mp hthis.1) hthis.2.1 hthis.2.2)
  have hinj : Set.InjOn (fun i : Nat => Int.ofNat i)
      ((Finset.range ops.length).filter (fun i => (opAt ops i).type_op = cls ∧
        (schedAt ops pf nm na m).getD i (-1) = c)) :=
    fun a _ b _ hab => Int.ofNat.inj hab
  calc ((Finset.range ops.length).filter (fun i => (opAt ops i).type_op = cls ∧
        (schedAt ops pf nm na m).getD i (-1) = c)).card
      ≤ (slotsAt ops pf nm na cls cap (c.toNat - 1)).toFinset.card :=
        Finset.card_le_card_of_injOn _ hsub hinj
    _ ≤ (slotsAt ops pf nm na cls cap (c.toNat - 1)).length :=
        List.toFinset_card_le _
    _ = cap.toNat := fillSlots_length ops pf _ cls cap.toNat

/-- Scenario A of the spec: `u0 := a + b`, `u1 := c - d`, `u2 := u1 * e`,
`u3 := u2 / u0`. -/
def opsA : List ScheduleOperation :=
  [⟨"u0", '+', -1, -1⟩, ⟨"u1", '+', -1, -1⟩, ⟨"u2", '*', 1, -1⟩, ⟨"u3", '*', 2, 0⟩]

/-! ## Claim C1: the final schedule respects dependencies -/

/-- **C1.** For every operation sequence with acyclic, in-range dependency
references and capacities `n_adder ≥ 1`, `n_mult ≥ 1`, the vector returned by
`priority_scheduling` respects dependencies: every operation is assigned a
strictly later cycle than each of its internal dependencies. -/
theorem priority_scheduling_respects_deps (ops : List ScheduleOperation)
    (asap alap : List Int) (n_mult n_adder : Int) (rank : Nat → Nat)
    (hin : InRange ops) (hrank : RankAcyclic ops rank)
    (htype : ∀ i < ops.length, (opAt ops i).type_op = '+' ∨ (opAt ops i).type_op = '*')
    (hadd : 1 ≤ n_adder) (hmul : 1 ≤ n_mult) :
    ∀ i < ops.length, ∀ j, isDep ops i j →
      (priority_scheduling ops asap alap n_mult n_adder).getD j (-1) <
      (priority_scheduling ops asap alap n_mult n_adder).getD i (-1) := by
  obtain ⟨m, hm, heq, hall, _⟩ := priority_scheduling_final_facts ops asap alap
    n_mult n_adder rank hin hrank htype hadd hmul
  intro i hi j hj
  rw [heq]
  exact ((Inv_all ops (priority_function asap alap ops.length) n_mult n_adder m).sdeps
    i hi j hj (hall i hi)).2

/-- Witness for C1 at Scenario A: `u3 := u2 / u0` is scheduled strictly after
`u2`. -/
theorem priority_scheduling_respects_deps_witness :
    (priority_scheduling opsA [1, 1, 2, 3] [2, 1, 2, 3] 2 2).getD 2 (-1) <
    (priority_scheduling opsA [1, 1, 2, 3] [2, 1, 2, 3] 2 2).getD 3 (-1) :=
  priority_scheduling_respects_deps opsA [1, 1, 2, 3] [2, 1, 2, 3] 2 2 (fun i => i)
    (by decide) (by decide) (by decide) (by decide) (by decide) 3 (by decide) 2
    (Or.inl (by decide))

/-! ## Claim C7: termination and complete scheduling -/

/-- **C7.** For every operation sequence with acyclic, in-range dependencies
and capacities `n_adder ≥ 1`, `n_mult ≥ 1`, the main loop reaches the
all-done exit within `N` cycles, and the returned vector has `N` entries all
between `1` and `N`. -/
theorem priority_scheduling_terminates (ops : List ScheduleOperation)
    (asap alap : List Int) (n_mult n_adder : Int) (rank : Nat → Nat)
    (hin : InRange ops) (hrank : RankAcyclic ops rank)
    (htype : ∀ i < ops.length, (opAt ops i).type_op = '+' ∨ (opAt ops i).type_op = '*')
    (hadd : 1 ≤ n_adder) (hmul : 1 ≤ n_mult) :
    (∃ k ≤ ops.length,
      allDone (readyAt ops (priority_function asap alap ops.length) n_mult n_adder k)
        = true) ∧
    (priority_scheduling ops asap alap n_mult n_adder).length = ops.length ∧
    ∀ i < ops.length,
      1 ≤ (priority_scheduling ops asap alap n_mult n_adder).getD i (-1) ∧
      (priority_scheduling ops asap alap n_mult n_adder).getD i (-1) ≤
        (ops.length : Int) := by
  obtain ⟨m, hm, heq, hall, hdone⟩ := priority_scheduling_final_facts ops asap alap
    n_mult n_adder rank hin hrank htype hadd hmul
  have h := Inv_all ops (priority_function asap alap ops.length) n_mult n_adder m
  refine ⟨⟨m, hm, hdone⟩, by rw [heq]; exact h.slen, ?_⟩
  intro i hi
  rw [heq]
  obtain ⟨h1, h2⟩ := h.sbound i hi (hall i hi)
  have hc : (m : Int) ≤ (ops.length : Int) := by exact_mod_cast hm
  exact ⟨h1, le_trans h2 hc⟩

/-- Witness for C7 at Scenario A with two adders and two multipliers. -/
theorem priority_scheduling_terminates_witness :
    (∃ k ≤ opsA.length,
      allDone (readyAt opsA (priority_function [1, 1, 2, 3] [2, 1, 2, 3] opsA.length)
        2 2 k) = true) ∧
    (priority_scheduling opsA [1, 1, 2, 3] [2, 1, 2, 3] 2 2).length = opsA.length ∧
    ∀ i < opsA.length,
      1 ≤ (priority_scheduling opsA [1, 1, 2, 3] [2, 1, 2, 3] 2 2).getD i (-1) ∧
      (priority_scheduling opsA [1, 1, 2, 3] [2, 1, 2, 3] 2 2).getD i (-1) ≤
        (opsA.length : Int) :=
  priority_scheduling_terminates opsA [1, 1, 2, 3] [2, 1, 2, 3] 2 2 (fun i => i)
    (by decide) (by decide) (by decide) (by decide) (by decide)

/-! ## Claim C2: resource capacities are never exceeded -/

/-- **C2.** For every input with non-negative capacities, every cycle `c`, and
each resource class, the number of operations of that class assigned final
cycle `c` never exceeds that class's capacity, and no operation occupies two
slots of the same class in one cycle (distinct occupied slots hold distinct
operations). -/
theorem priority_scheduling_resource_caps (ops : List ScheduleOperation)
    (asap alap : List Int) (n_mult n_adder : Int)
    (hadd : 0 ≤ n_adder) (hmul : 0 ≤ n_mult) :
    (∀ c : Int, 1 ≤ c →
      ((((Finset.range ops.length).filter (fun i => (opAt ops i).type_op = '+' ∧
          (priority_scheduling ops asap alap n_mult n_adder).getD i (-1) = c)).card : Int)
        ≤ n_adder ∧
       (((Finset.range ops.length).filter (fun i => (opAt ops i).type_op = '*' ∧
          (priority_scheduling ops asap alap n_mult n_adder).getD i (-1) = c)).card : Int)
        ≤ n_mult)) ∧
    (∀ (cls : Char) (cap : Int) (k : Nat), ∀ p < cap.toNat, ∀ q < cap.toNat, p ≠ q →
      (slotsAt ops (priority_function asap alap ops.length) n_mult n_adder
        cls cap k).getD p (-1) = -1 ∨
      (slotsAt ops (priority_function asap alap ops.length) n_mult n_adder
        cls cap k).getD p (-1) ≠
        (slotsAt ops (priority_function asap alap ops.length) n_mult n_adder
          cls cap k).getD q (-1)) := by
  obtain ⟨m, hm, heq, hdone⟩ := priority_scheduling_run ops asap alap n_mult n_adder
  constructor
  · intro c hc
    have hmemAdd : ∀ i < ops.length, (opAt ops i).type_op = '+' →
        (schedAt ops (priority_function asap alap ops.length) n_mult n_adder m).getD
          i (-1) = c →
        Int.ofNat i ∈ slotsAt ops (priority_function asap alap ops.length)
          n_mult n_adder '+' n_adder (c.toNat - 1) := by
      intro i hi ht hv
      rcases sched_val_mem ops (priority_function asap alap ops.length) n_mult n_adder
        m i hi c (by omega) hv with ⟨_, hmem⟩ | ⟨ht2, _⟩
      · exact hmem
      · rw [ht] at ht2
        exact absurd ht2 (by decide)
    have hmemMul : ∀ i < ops.length, (opAt ops i).type_op = '*' →
        (schedAt ops (priority_function asap alap ops.length) n_mult n_adder m).getD
          i (-1) = c →
        Int.ofNat i ∈ slotsAt ops (priority_function asap alap ops.length)
          n_mult n_adder '*' n_mult (c.toNat - 1) := by
      intro i hi ht hv
      rcases sched_val_mem ops (priority_function asap alap ops.length) n_mult n_adder
        m i hi c (by omega) hv with ⟨ht2, _⟩ | ⟨_, hmem⟩
      · rw [ht] at ht2
        exact absurd ht2 (by decide)
      · exact hmem
    have hcntA := count_class_le ops (priority_function asap alap ops.length)
      n_mult n_adder m '+' n_adder c hmemAdd
    have hcntM := count_class_le ops (priority_function asap alap ops.length)
      n_mult n_adder m '*' n_mult c hmemMul
    rw [heq]
    constructor
    · have : (n_adder.toNat : Int) ≤ n_adder := by omega
      calc ((((Finset.range ops.length).filter (fun i => (opAt ops i).type_op = '+' ∧
            (schedAt ops (priority_function asap alap ops.length) n_mult n_adder
              m).getD i (-1) = c)).card : Int))
          ≤ (n_adder.toNat : Int) := by exact_mod_cast hcntA
        _ ≤ n_adder := this
    · have : (n_mult.toNat : Int) ≤ n_mult := by omega
      calc ((((Finset.range ops.length).filter (fun i => (opAt ops i).type_op = '*' ∧
            (schedAt ops (priority_function asap alap ops.length) n_mult n_adder
              m).getD i (-1) = c)).card : Int))
          ≤ (n_mult.toNat : Int) := by exact_mod_cast hcntM
        _ ≤ n_mult := this
  · intro cls cap k p hp q hq hpq
    have hspec := fillSlots_spec ops (priority_function asap alap ops.length)
      (readyStep ops (readyAt ops (priority_function asap alap ops.length)
        n_mult n_adder k)) cls cap.toNat
    exact hspec.2.1 p hp q hq hpq

/-- Witness for C2 at Scenario A with one adder and one multiplier, cycle 1. -/
theorem priority_scheduling_resource_caps_witness :
    ((((Finset.range opsA.length).filter (fun i => (opAt opsA i).type_op = '+' ∧
        (priority_scheduling opsA [1, 1, 2, 3] [3, 1, 2, 3] 1 1).getD i (-1) = 1)).card
      : Int) ≤ 1 ∧
     (((Finset.range opsA.length).filter (fun i => (opAt opsA i).type_op = '*' ∧
        (priority_scheduling opsA [1, 1, 2, 3] [3, 1, 2, 3] 1 1).getD i (-1) = 1)).card
      : Int) ≤ 1) :=
  (priority_scheduling_resource_caps opsA [1, 1, 2, 3] [3, 1, 2, 3] 1 1
    (by decide) (by decide)).1 1 (by decide)

/-! ## Claim C4: the ASAP recurrence -/

/-- The readiness test of `asap_scheduling` holds exactly when each operand
is an external input or already done. -/
lemma asapReady_iff (done : List Int) (op : ScheduleOperation) :
    asapReady done op = true ↔ depsDone done op := by
  unfold depsDone
  simp only [asapReady, Bool.or_eq_true, Bool.and_eq_true, beq_iff_eq, bne_iff_ne]
  tauto

lemma asapStep_length (ops : List ScheduleOperation) (done : List Int) (clk : Int) :
    (asapStep ops done clk).length = ops.length := by
  unfold asapStep; simp

lemma asapStep_getD (ops : List ScheduleOperation) (done : List Int) (clk : Int)
    {i : Nat} (hi : i < ops.length) :
    (asapStep ops done clk).getD i (-1) =
      if done.getD i (-1) != -1 then done.getD i (-1)
      else if asapReady done (opAt ops i) then clk
      else done.getD i (-1) := by
  unfold asapStep
  exact getD_map_range _ hi (-1)

lemma getD_default_eq {l : List Int} {q : Nat} (hq : q < l.length) (d1 d2 : Int) :
    l.getD q d1 = l.getD q d2 := by
  rw [getD_eq_getElem _ _ _ hq, getD_eq_getElem _ _ _ hq]

/-- `depMax` only looks at the assigned operands, so any extension of the
schedule vector that keeps assigned entries keeps `depMax`. -/
lemma depMax_congr (d1 d2 : List Int) (op : ScheduleOperation)
    (hkeep : ∀ q < d1.length, d1.getD q (-1) ≠ -1 → d2.getD q 0 = d1.getD q 0)
    (hdeps : depsDone d1 op) :
    depMax d2 op = depMax d1 op := by
  obtain ⟨h1, h2⟩ := hdeps
  have keep1 : op.index1 ≠ -1 → d2.getD op.index1.toNat 0 = d1.getD op.index1.toNat 0 := by
    intro hne
    rcases h1 with he | he
    · exact absurd he hne
    · have hlt : op.index1.toNat < d1.length := by
        by_contra hc
        rw [getD_of_length_le (by omega) (-1)] at he
        exact he rfl
      exact hkeep _ hlt he
  have keep2 : op.index2 ≠ -1 → d2.getD op.index2.toNat 0 = d1.getD op.index2.toNat 0 := by
    intro hne
    rcases h2 with he | he
    · exact absurd he hne
    · have hlt : op.index2.toNat < d1.length := by
        by_contra hc
        rw [getD_of_length_le (by omega) (-1)] at he
        exact he rfl
      exact hkeep _ hlt he
  unfold depMax
  split_ifs with hA hB hC
  · rfl
  · exact keep1 (fun he => hA ⟨he, hB⟩)
  · exact keep2 hB
  · rw [keep1 hC, keep2 hB]

/-- The still-unassigned operations of an ASAP pass. -/
def aUnset (ops : List ScheduleOperation) (done : List Int) : Finset Nat :=
  (Finset.range ops.length).filter (fun i => done.getD i (-1) = -1)

section AsapProof

variable (ops : List ScheduleOperation)

lemma asapStep_keep (done : List Int) (clk : Int) {q : Nat}
    (hq : q < ops.length) (hset : done.getD q (-1) ≠ -1) :
    (asapStep ops done clk).getD q (-1) = done.getD q (-1) := by
  rw [asapStep_getD ops done clk hq, if_pos (by rwa [bne_iff_ne])]

/-- One ASAP pass preserves the pass invariant (pass counter `c ≥ 1`):
values stay in `[1, c]`, assigned entries satisfy the recurrence, and an
unassigned entry whose operands are all available has `depMax` exactly the
previous pass value. -/
lemma asapStep_inv (c : Nat) (hc : 1 ≤ c) (done : List Int)
    (hlen : done.length = ops.length)
    (hvals : ∀ i < ops.length, done.getD i (-1) = -1 ∨
      (1 ≤ done.getD i (-1) ∧ done.getD i (-1) ≤ (c : Int) - 1))
    (hrec : ∀ i < ops.length, done.getD i (-1) ≠ -1 →
      depsDone done (opAt ops i) ∧
      done.getD i (-1) = 1 + depMax done (opAt ops i))
    (hfresh : ∀ i < ops.length, done.getD i (-1) = -1 →
      depsDone done (opAt ops i) → depMax done (opAt ops i) = (c : Int) - 1) :
    (asapStep ops done (c : Int)).length = ops.length ∧
    (∀ i < ops.length, (asapStep ops done (c : Int)).getD i (-1) = -1 ∨
      (1 ≤ (asapStep ops done (c : Int)).getD i (-1) ∧
        (asapStep ops done (c : Int)).getD i (-1) ≤ ((c + 1 : Nat) : Int) - 1)) ∧
    (∀ i < ops.length, (asapStep ops done (c : Int)).getD i (-1) ≠ -1 →
      depsDone (asapStep ops done (c : Int)) (opAt ops i) ∧
      (asapStep ops done (c : Int)).getD i (-1) =
        1 + depMax (asapStep ops done (c : Int)) (opAt ops i)) ∧
    (∀ i < ops.length, (asapStep ops done (c : Int)).getD i (-1) = -1 →
      depsDone (asapStep ops done (c : Int)) (opAt ops i) →
      depMax (asapStep ops done (c : Int)) (opAt ops i) = ((c + 1 : Nat) : Int) - 1) := by
  have hkeep : ∀ q < ops.length, done.getD q (-1) ≠ -1 →
      (asapStep ops done (c : Int)).getD q (-1) = done.getD q (-1) :=
    fun q hq hset => asapStep_keep ops done (c : Int) hq hset
  have hkeep0 : ∀ q < done.length, done.getD q (-1) ≠ -1 →
      (asapStep ops done (c : Int)).getD q 0 = done.getD q 0 := by
    intro q hq hset
    have hq' : q < ops.length := by omega
    have hlt : q < (asapStep ops done (c : Int)).length := by
      rw [asapStep_length]; omega
    rw [getD_default_eq hlt 0 (-1), getD_default_eq (by omega : q < done.length) 0 (-1)]
    exact hkeep q hq' hset
  have hsetdep : ∀ op : ScheduleOperation, depsDone done op →
      depsDone (asapStep ops done (c : Int)) op := by
    intro op ⟨h1, h2⟩
    constructor
    · rcases h1 with he | he
      · exact Or.inl he
      · right
        have hlt : op.index1.toNat < done.length := by
          by_contra hco
          rw [getD_of_length_le (by omega) (-1)] at he
          exact he rfl
        rw [hkeep _ (by omega) he]
        exact he
    · rcases h2 with he | he
      · exact Or.inl he
      · right
        have hlt : op.index2.toNat < done.length := by
          by_contra hco
          rw [getD_of_length_le (by omega) (-1)] at he
          exact he rfl
        rw [hkeep _ (by omega) he]
        exact he
  have hval : ∀ p, p < ops.length →
      (asapStep ops done (c : Int)).getD p (-1) ≠ -1 →
      ((asapStep ops done (c : Int)).getD p 0 ≤ (c : Int) ∧
       (done.getD p (-1) = -1 → (asapStep ops done (c : Int)).getD p 0 = (c : Int))) := by
    intro p hp hpset
    have hlt : p < (asapStep ops done (c : Int)).length := by
      rw [asapStep_length]; omega
    rw [getD_default_eq hlt 0 (-1)]
    by_cases hps : done.getD p (-1) = -1
    · have hstep := asapStep_getD ops done (c : Int) hp
      rw [hps, if_neg (by decide)] at hstep
      by_cases hr : asapReady done (opAt ops p) = true
      · rw [if_pos hr] at hstep
        rw [hstep]
        exact ⟨le_refl _, fun _ => rfl⟩
      · rw [if_neg hr] at hstep
        exact absurd hstep hpset
    · rw [hkeep p hp hps]
      rcases hvals p hp with h0 | ⟨hb1, hb2⟩
      · exact absurd h0 hps
      · exact ⟨by omega, fun hcon => absurd hcon hps⟩
  have hpos : ∀ idx : Int,
      (asapStep ops done (c : Int)).getD idx.toNat (-1) ≠ -1 →
      idx.toNat < ops.length := by
    intro idx hset2
    by_contra hc2
    rw [getD_of_length_le (by rw [asapStep_length]; omega) (-1)] at hset2
    exact hset2 rfl
  refine ⟨asapStep_length ops done (c : Int), ?_, ?_, ?_⟩
  · -- value bounds
    intro i hi
    rw [asapStep_getD ops done (c : Int) hi]
    rcases hvals i hi with h0 | ⟨h1, h2⟩
    · rw [h0, if_neg (by decide)]
      split
      · right
        constructor
        · exact_mod_cast hc
        · push_cast
          omega
      · left
        rfl
    · have hne : done.getD i (-1) ≠ -1 := by omega
      rw [if_pos (by rwa [bne_iff_ne])]
      right
      refine ⟨h1, ?_⟩
      push_cast
      omega
  · -- recurrence for assigned entries
    intro i hi hne'
    by_cases hset : done.getD i (-1) = -1
    · have hstep := asapStep_getD ops done (c : Int) hi
      rw [hset, if_neg (by decide)] at hstep
      by_cases hready : asapReady done (opAt ops i) = true
      · rw [if_pos hready] at hstep
        have hd : depsDone done (opAt ops i) := (asapReady_iff done _).mp hready
        have hfr := hfresh i hi hset hd
        refine ⟨hsetdep _ hd, ?_⟩
        rw [hstep, depMax_congr done _ (opAt ops i) hkeep0 hd, hfr]
        omega
      · rw [if_neg hready] at hstep
        exact absurd hstep hne'
    · have heq := hkeep i hi hset
      obtain ⟨hd, hr⟩ := hrec i hi hset
      refine ⟨hsetdep _ hd, ?_⟩
      rw [heq, hr, depMax_congr done _ (opAt ops i) hkeep0 hd]
  · -- freshly enabled entries
    intro i hi hunset hdeps'
    have hdone0 : done.getD i (-1) = -1 := by
      by_contra hc2
      rw [hkeep i hi hc2] at hunset
      exact hc2 hunset
    have hnotready : ¬ (asapReady done (opAt ops i) = true) := by
      intro hr
      have hstep := asapStep_getD ops done (c : Int) hi
      rw [hdone0, if_neg (by decide), if_pos hr] at hstep
      rw [hstep] at hunset
      omega
    have hnd : ¬ depsDone done (opAt ops i) :=
      fun hd => hnotready ((asapReady_iff done _).mpr hd)
    obtain ⟨hd1, hd2⟩ := hdeps'
    by_cases e1 : (opAt ops i).index1 = -1
    · by_cases e2 : (opAt ops i).index2 = -1
      · exact absurd ⟨Or.inl e1, Or.inl e2⟩ hnd
      · -- only the second operand is internal; it must be newly assigned
        have hd2' : (asapStep ops done (c : Int)).getD (opAt ops i).index2.toNat (-1)
            ≠ -1 := by
          rcases hd2 with he | he
          · exact absurd he e2
          · exact he
        have hp2 := hpos _ hd2'
        have hdone2 : done.getD (opAt ops i).index2.toNat (-1) = -1 := by
          by_contra hc2
          exact hnd ⟨Or.inl e1, Or.inr hc2⟩
        have hv := (hval _ hp2 hd2').2 hdone2
        unfold depMax
        rw [if_neg (by tauto), if_neg e2, if_pos e1, hv]
        push_cast
        omega
    · by_cases e2 : (opAt ops i).index2 = -1
      · have hd1' : (asapStep ops done (c : Int)).getD (opAt ops i).index1.toNat (-1)
            ≠ -1 := by
          rcases hd1 with he | he
          · exact absurd he e1
          · exact he
        have hp1 := hpos _ hd1'
        have hdone1 : done.getD (opAt ops i).index1.toNat (-1) = -1 := by
          by_contra hc2
          exact hnd ⟨Or.inr hc2, Or.inl e2⟩
        have hv := (hval _ hp1 hd1').2 hdone1
        unfold depMax
        rw [if_neg (by tauto), if_pos e2, hv]
        push_cast
        omega
      · -- both operands internal
        have hd1' : (asapStep ops done (c : Int)).getD (opAt ops i).index1.toNat (-1)
            ≠ -1 := by
          rcases hd1 with he | he
          · exact absurd he e1
          · exact he
        have hd2' : (asapStep ops done (c : Int)).getD (opAt ops i).index2.toNat (-1)
            ≠ -1 := by
          rcases hd2 with he | he
          · exact absurd he e2
          · exact he
        have hp1 := hpos _ hd1'
        have hp2 := hpos _ hd2'
        have hb1 := (hval _ hp1 hd1').1
        have hb2 := (hval _ hp2 hd2').1
        have hone : done.getD (opAt ops i).index1.toNat (-1) = -1 ∨
            done.getD (opAt ops i).index2.toNat (-1) = -1 := by
          by_contra hc2
          push_neg at hc2
          exact hnd ⟨Or.inr hc2.1, Or.inr hc2.2⟩
        unfold depMax
        rw [if_neg (by tauto), if_neg e2, if_neg e1]
        rcases hone with hx | hx
        · have hv := (hval _ hp1 hd1').2 hx
          rw [hv]
          push_cast
          omega
        · have hv := (hval _ hp2 hd2').2 hx
          rw [hv]
          push_cast
          omega

/-- While unresolved operations remain, some rank-minimal one becomes
resolvable, so the pass assigns the current cycle to it. -/
lemma asap_progress (rank : Nat → Nat) (hin : InRange ops) (hrank : RankAcyclic ops rank)
    (done : List Int) (hne : (aUnset ops done).Nonempty) (c : Nat) :
    ∃ i < ops.length, done.getD i (-1) = -1 ∧
      (asapStep ops done (c : Int)).getD i (-1) = (c : Int) := by
  obtain ⟨i, hiU, hmin⟩ := Finset.exists_min_image _ rank hne
  have hm := Finset.mem_filter.mp hiU
  have hi : i < ops.length := Finset.mem_range.mp hm.1
  have hiu : done.getD i (-1) = -1 := hm.2
  have hdeps : depsDone done (opAt ops i) := by
    constructor
    · by_cases e1 : (opAt ops i).index1 = -1
      · exact Or.inl e1
      · right
        rcases (hin i hi).1 with he | ⟨he1, he2⟩
        · exact absurd he e1
        · have hlt : (opAt ops i).index1.toNat < ops.length := by omega
          have hform : (opAt ops i).index1 = Int.ofNat (opAt ops i).index1.toNat := by
            rw [Int.ofNat_eq_natCast, Int.toNat_of_nonneg he1]
          have hrj := hrank i hi _ hlt (Or.inl hform)
          by_contra hc2
          have hmem2 : (opAt ops i).index1.toNat ∈ aUnset ops done :=
            Finset.mem_filter.mpr ⟨Finset.mem_range.mpr hlt, hc2⟩
          exact absurd (hmin _ hmem2) (by omega)
    · by_cases e2 : (opAt ops i).index2 = -1
      · exact Or.inl e2
      · right
        rcases (hin i hi).2 with he | ⟨he1, he2⟩
        · exact absurd he e2
        · have hlt : (opAt ops i).index2.toNat < ops.length := by omega
          have hform : (opAt ops i).index2 = Int.ofNat (opAt ops i).index2.toNat := by
            rw [Int.ofNat_eq_natCast, Int.toNat_of_nonneg he1]
          have hrj := hrank i hi _ hlt (Or.inr hform)
          by_contra hc2
          have hmem2 : (opAt ops i).index2.toNat ∈ aUnset ops done :=
            Finset.mem_filter.mpr ⟨Finset.mem_range.mpr hlt, hc2⟩
          exact absurd (hmin _ hmem2) (by omega)
  have hready : asapReady done (opAt ops i) = true := (asapReady_iff done _).mpr hdeps
  refine ⟨i, hi, hiu, ?_⟩
  rw [asapStep_getD ops done (c : Int) hi, hiu, if_neg (by decide), if_pos hready]

lemma aUnset_step_subset (done : List Int) (c : Int) :
    aUnset ops (asapStep ops done c) ⊆ aUnset ops done := by
  intro i hi
  have hm := Finset.mem_filter.mp hi
  have hin' : i < ops.length := Finset.mem_range.mp hm.1
  refine Finset.mem_filter.mpr ⟨hm.1, ?_⟩
  by_contra hc2
  rw [asapStep_keep ops done c hin' hc2] at hm
  exact hc2 hm.2

/-- The ASAP relaxation with enough fuel resolves every operation and the
result satisfies the ASAP recurrence. -/
lemma asapLoop_spec (rank : Nat → Nat) (hin : InRange ops) (hrank : RankAcyclic ops rank) :
    ∀ (fuel c : Nat) (done : List Int),
      1 ≤ c →
      done.length = ops.length →
      (∀ i < ops.length, done.getD i (-1) = -1 ∨
        (1 ≤ done.getD i (-1) ∧ done.getD i (-1) ≤ (c : Int) - 1)) →
      (∀ i < ops.length, done.getD i (-1) ≠ -1 →
        depsDone done (opAt ops i) ∧
        done.getD i (-1) = 1 + depMax done (opAt ops i)) →
      (∀ i < ops.length, done.getD i (-1) = -1 →
        depsDone done (opAt ops i) → depMax done (opAt ops i) = (c : Int) - 1) →
      (aUnset ops done).card ≤ fuel →
      (asapLoop ops done (c : Int) fuel).length = ops.length ∧
      ∀ i < ops.length, 1 ≤ (asapLoop ops done (c : Int) fuel).getD i (-1) ∧
        (asapLoop ops done (c : Int) fuel).getD i (-1) =
          1 + depMax (asapLoop ops done (c : Int) fuel) (opAt ops i) := by
  intro fuel
  induction fuel with
  | zero =>
    intro c done hc hlen hvals hrec hfresh hcard
    have hemp : aUnset ops done = ∅ := Finset.card_eq_zero.mp (by omega)
    have hall : ∀ i < ops.length, done.getD i (-1) ≠ -1 := by
      intro i hi hs
      have hmem2 : i ∈ aUnset ops done :=
        Finset.mem_filter.mpr ⟨Finset.mem_range.mpr hi, hs⟩
      rw [hemp] at hmem2
      exact absurd hmem2 (Finset.not_mem_empty i)
    refine ⟨hlen, fun i hi => ?_⟩
    obtain ⟨hd, hr⟩ := hrec i hi (hall i hi)
    rcases hvals i hi with h0 | ⟨h1, _⟩
    · exact absurd h0 (hall i hi)
    · exact ⟨h1, hr⟩
  | succ fuel ih =>
    intro c done hc hlen hvals hrec hfresh hcard
    have hunfold : asapLoop ops done (c : Int) (fuel + 1) =
        if done == asapStep ops done (c : Int) then done
        else asapLoop ops (asapStep ops done (c : Int)) ((c : Int) + 1) fuel := rfl
    rw [hunfold]
    by_cases heq : done = asapStep ops done (c : Int)
    · rw [if_pos (by rw [beq_iff_eq]; exact heq)]
      have hall : ∀ i < ops.length, done.getD i (-1) ≠ -1 := by
        intro i hi hs
        have hne : (aUnset ops done).Nonempty :=
          ⟨i, Finset.mem_filter.mpr ⟨Finset.mem_range.mpr hi, hs⟩⟩
        obtain ⟨j, hj, hju, hjs⟩ := asap_progress ops rank hin hrank done hne c
        rw [← heq, hju] at hjs
        omega
      refine ⟨hlen, fun i hi => ?_⟩
      obtain ⟨hd, hr⟩ := hrec i hi (hall i hi)
      rcases hvals i hi with h0 | ⟨h1, _⟩
      · exact absurd h0 (hall i hi)
      · exact ⟨h1, hr⟩
    · rw [if_neg (by rw [beq_iff_eq]; exact heq)]
      obtain ⟨l1, l2, l3, l4⟩ := asapStep_inv ops c hc done hlen hvals hrec hfresh
      have hnonempty : (aUnset ops done).Nonempty := by
        by_contra hemp2
        rw [Finset.not_nonempty_iff_eq_empty] at hemp2
        apply heq
        apply List.ext_getElem (by rw [asapStep_length]; exact hlen)
        intro q h1 h2
        have hq : q < ops.length := by omega
        have hqset : done.getD q (-1) ≠ -1 := by
          intro hs
          have hmem2 : q ∈ aUnset ops done :=
            Finset.mem_filter.mpr ⟨Finset.mem_range.mpr hq, hs⟩
          rw [hemp2] at hmem2
          exact absurd hmem2 (Finset.not_mem_empty q)
        have hkq := asapStep_keep ops done (c : Int) hq hqset
        rw [getD_eq_getElem _ _ _ h2, getD_eq_getElem _ _ _ h1] at hkq
        exact hkq.symm
      obtain ⟨j, hjn, hju, hjs⟩ := asap_progress ops rank hin hrank done hnonempty c
      have hless : (aUnset ops (asapStep ops done (c : Int))).card <
          (aUnset ops done).card := by
        apply Finset.card_lt_card
        rw [Finset.ssubset_iff_of_subset (aUnset_step_subset ops done (c : Int))]
        refine ⟨j, Finset.mem_filter.mpr ⟨Finset.mem_range.mpr hjn, hju⟩, ?_⟩
        intro hmem2
        have := (Finset.mem_filter.mp hmem2).2
        rw [hjs] at this
        omega
      have harith : ((c : Int) + 1) = (((c + 1 : Nat)) : Int) := by push_cast; ring
      rw [harith]
      exact ih (c + 1) (asapStep ops done (c : Int)) (by omega) l1 l2 l3 l4 (by omega)

end AsapProof

/-- **C4.** For every operation sequence with in-range, acyclic dependency
references, `asap_scheduling` returns a vector of `N` positive integers
satisfying the ASAP recurrence: `ASAP[i] = 1` when both operands are
external inputs (`index1 = index2 = -1`), and in general
`ASAP[i] = 1 + depMax`, the maximum ASAP value over the internal
dependencies of `i` (`depMax = 0` for no dependencies). -/
theorem asap_scheduling_recurrence (ops : List ScheduleOperation) (rank : Nat → Nat)
    (hin : InRange ops) (hrank : RankAcyclic ops rank) :
    (asap_scheduling ops).length = ops.length ∧
    ∀ i < ops.length,
      1 ≤ (asap_scheduling ops).getD i (-1) ∧
      ((opAt ops i).index1 = -1 ∧ (opAt ops i).index2 = -1 →
        (asap_scheduling ops).getD i (-1) = 1) ∧
      (asap_scheduling ops).getD i (-1) =
        1 + depMax (asap_scheduling ops) (opAt ops i) := by
  have hrepl : ∀ (p : Nat),
      (List.replicate ops.length (-1 : Int)).getD p (-1) = -1 := by
    intro p
    by_cases h : p < ops.length
    · exact getD_replicate _ _ h
    · exact getD_of_length_le (by simp; omega) _
  have hmain := asapLoop_spec ops rank hin hrank ops.length 1
    (List.replicate ops.length (-1)) (le_refl 1) (by simp)
    (fun i hi => Or.inl (hrepl i))
    (fun i hi hs => absurd (hrepl i) hs)
    (fun i hi _ hd => by
      obtain ⟨hd1, hd2⟩ := hd
      have e1 : (opAt ops i).index1 = -1 := by
        rcases hd1 with he | he
        · exact he
        · exact absurd (hrepl _) he
      have e2 : (opAt ops i).index2 = -1 := by
        rcases hd2 with he | he
        · exact he
        · exact absurd (hrepl _) he
      unfold depMax
      rw [if_pos ⟨e1, e2⟩]
      norm_num)
    (le_trans (Finset.card_filter_le _ _) (by rw [Finset.card_range]))
  have hcast : (((1 : Nat)) : Int) = (1 : Int) := rfl
  rw [hcast] at hmain
  have heqrun : asap_scheduling ops =
      asapLoop ops (List.replicate ops.length (-1)) 1 ops.length := rfl
  rw [heqrun]
  obtain ⟨hlen, hrec⟩ := hmain
  refine ⟨hlen, fun i hi => ?_⟩
  obtain ⟨h1, h2⟩ := hrec i hi
  refine ⟨h1, fun hext => ?_, h2⟩
  rw [h2]
  unfold depMax
  rw [if_pos hext]
  norm_num

/-- Witness for C4 at Scenario A (identity rank function). -/
theorem asap_scheduling_recurrence_witness :
    (asap_scheduling opsA).length = opsA.length ∧
    ∀ i < opsA.length,
      1 ≤ (asap_scheduling opsA).getD i (-1) ∧
      ((opAt opsA i).index1 = -1 ∧ (opAt opsA i).index2 = -1 →
        (asap_scheduling opsA).getD i (-1) = 1) ∧
      (asap_scheduling opsA).getD i (-1) =
        1 + depMax (asap_scheduling opsA) (opAt opsA i) :=
  asap_scheduling_recurrence opsA (fun i => i) (by decide) (by decide)

/-! ## The ALAP backward propagation -/

lemma isDep_lt (ops : List ScheduleOperation) {i j : Nat} (h : isDep ops i j) :
    i < ops.length := by
  by_contra hc
  have hdef : opAt ops i = default := getD_of_length_le (by omega) default
  rcases h with hd | hd <;> rw [hdef] at hd <;>
    exact ofNat_ne_neg_one j hd.symm

lemma dpath_zero (ops : List ScheduleOperation) {s i : Nat} (h : DPath ops s i 0) :
    i = s := by
  cases h
  rfl

lemma dpath_snoc_inv (ops : List ScheduleOperation) {s p m : Nat}
    (h : DPath ops s p (m + 1)) : ∃ i, DPath ops s i m ∧ isDep ops i p := by
  cases h with
  | tail hp hd => exact ⟨_, hp, hd⟩

lemma dpath_lt (ops : List ScheduleOperation) (hin : InRange ops) {s i L : Nat}
    (hs : s < ops.length) (h : DPath ops s i L) : i < ops.length := by
  induction h with
  | refl => exact hs
  | tail hp hd ih =>
    next i2 j2 L2 =>
    have hi2 : i2 < ops.length := isDep_lt ops hd
    rcases hd with he | he
    · rcases (hin i2 hi2).1 with h1 | ⟨h1, h2⟩
      · exact absurd (he ▸ h1) (ofNat_ne_neg_one j2)
      · rw [he, Int.ofNat_eq_natCast] at h2
        exact_mod_cast h2
    · rcases (hin i2 hi2).2 with h1 | ⟨h1, h2⟩
      · exact absurd (he ▸ h1) (ofNat_ne_neg_one j2)
      · rw [he, Int.ofNat_eq_natCast] at h2
        exact_mod_cast h2

lemma dpath_rank (ops : List ScheduleOperation) (rank : Nat → Nat) (hin : InRange ops)
    (hrank : RankAcyclic ops rank) {s i L : Nat} (hs : s < ops.length)
    (h : DPath ops s i L) : rank i + L ≤ rank s := by
  induction h with
  | refl => omega
  | tail hp hd ih =>
    next i2 j2 L2 =>
    have hi2 : i2 < ops.length := isDep_lt ops hd
    have hj2 : j2 < ops.length := dpath_lt ops hin hs (DPath.tail hp hd)
    have := hrank i2 hi2 j2 hj2 hd
    omega

lemma alapStep_length (ops : List ScheduleOperation) (done : List Int) (clk : Int) :
    (alapStep ops done clk).length = done.length := by
  unfold alapStep; simp

lemma alapStep_getD (ops : List ScheduleOperation) (done : List Int) (clk : Int)
    {p : Nat} (hp : p < done.length) :
    (alapStep ops done clk).getD p (-1) =
      if alapConsumed ops done clk p then clk else done.getD p (-1) := by
  unfold alapStep
  exact getD_map_range _ hp (-1)

lemma alapConsumed_iff (ops : List ScheduleOperation) (done : List Int) (clk : Int)
    (p : Nat) :
    alapConsumed ops done clk p = true ↔
      ∃ i < ops.length, done.getD i (-1) = clk + 1 ∧ isDep ops i p := by
  unfold alapConsumed isDep
  rw [List.any_eq_true]
  constructor
  · rintro ⟨i, hmem, hcond⟩
    rw [Bool.and_eq_true, beq_iff_eq, Bool.or_eq_true, beq_iff_eq, beq_iff_eq] at hcond
    exact ⟨i, List.mem_range.mp hmem, hcond.1, hcond.2⟩
  · rintro ⟨i, hi, h1, h2⟩
    refine ⟨i, List.mem_range.mpr hi, ?_⟩
    rw [Bool.and_eq_true, beq_iff_eq, Bool.or_eq_true, beq_iff_eq, beq_iff_eq]
    exact ⟨h1, h2⟩

lemma lt_indexOf_ne (l : List Int) (a : Int) :
    ∀ j, j < l.indexOf a → ∀ (h : j < l.length), l[j] ≠ a := by
  induction l with
  | nil =>
    intro j hj h
    simp at h
  | cons x xs ih =>
    intro j hj h
    by_cases hxa : x = a
    · rw [List.indexOf_cons_eq xs hxa] at hj
      omega
    · rw [List.indexOf_cons_ne xs hxa] at hj
      match j with
      | 0 =>
        simpa using hxa
      | Nat.succ j2 =>
        have hj2 : j2 < xs.indexOf a := by omega
        have h2 : j2 < xs.length := by simpa using h
        simpa using ih j2 hj2 h2

lemma alap_setup (asap : List Int) (hne : asap ≠ []) :
    ∃ cmax, asap.max? = some cmax ∧ cmax ∈ asap ∧ (∀ b ∈ asap, b ≤ cmax) ∧
      alapSink asap = asap.indexOf cmax ∧ asap.indexOf cmax < asap.length := by
  cases hm : asap.max? with
  | none => exact absurd (List.max?_eq_none_iff.mp hm) hne
  | some cmax =>
    have hmem := List.max?_mem (fun a b => max_choice a b) hm
    have hub := (List.max?_le_iff (fun a b c => max_le_iff) hm).1 (le_refl cmax)
    refine ⟨cmax, rfl, hmem, hub, ?_, List.indexOf_lt_length.mpr hmem⟩
    unfold alapSink
    rw [hm]
    rfl

lemma alap_scheduling_eq (ops : List ScheduleOperation) (asap : List Int) {cmax : Int}
    (hm : asap.max? = some cmax) :
    alap_scheduling ops asap = some (alapLoop ops
      ((List.replicate ops.length (-1)).set (asap.indexOf cmax) cmax)
      (cmax - 1) (cmax - 1).toNat) := by
  unfold alap_scheduling
  rw [hm]

/-- Weak invariant of the backward sweep: only operations backward-reachable
from the anchor ever receive a value, and the anchor (never being a
dependency of a reachable operation, by acyclicity) keeps `cmax`. -/
lemma alapLoop_weak (ops : List ScheduleOperation) (rank : Nat → Nat)
    (hin : InRange ops) (hrank : RankAcyclic ops rank) (pos : Nat) (cmax : Int)
    (hpos : pos < ops.length) :
    ∀ (fuel : Nat) (clk : Int) (done : List Int),
      (fuel = 0 ∨ (fuel : Int) ≤ clk) →
      done.length = ops.length →
      (∀ i < ops.length, done.getD i (-1) ≠ -1 → Reachable ops pos i) →
      done.getD pos (-1) = cmax →
      (alapLoop ops done clk fuel).length = ops.length ∧
      (∀ i < ops.length, (alapLoop ops done clk fuel).getD i (-1) ≠ -1 →
        Reachable ops pos i) ∧
      (alapLoop ops done clk fuel).getD pos (-1) = cmax := by
  intro fuel
  induction fuel with
  | zero =>
    intro clk done hclk hlen hreach hanchor
    exact ⟨hlen, hreach, hanchor⟩
  | succ fuel ih =>
    intro clk done hclk hlen hreach hanchor
    have hclk1 : (1 : Int) ≤ clk := by
      rcases hclk with h | h
      · omega
      · push_cast at h
        omega
    have hunfold : alapLoop ops done clk (fuel + 1) =
        alapLoop ops (alapStep ops done clk) (clk - 1) fuel := rfl
    rw [hunfold]
    have hstep_reach : ∀ i < ops.length,
        (alapStep ops done clk).getD i (-1) ≠ -1 → Reachable ops pos i := by
      intro i hi hne2
      rw [alapStep_getD ops done clk (by omega)] at hne2
      by_cases hcons : alapConsumed ops done clk i = true
      · obtain ⟨i2, hi2, hv2, hd2⟩ := (alapConsumed_iff ops done clk i).mp hcons
        have hr2 : Reachable ops pos i2 := hreach i2 hi2 (by rw [hv2]; omega)
        obtain ⟨L, hL⟩ := hr2
        exact ⟨L + 1, DPath.tail hL hd2⟩
      · rw [if_neg hcons] at hne2
        exact hreach i hi hne2
    have hstep_anchor : (alapStep ops done clk).getD pos (-1) = cmax := by
      rw [alapStep_getD ops done clk (by omega)]
      rw [if_neg ?_, hanchor]
      intro hcons
      obtain ⟨i2, hi2, hv2, hd2⟩ := (alapConsumed_iff ops done clk pos).mp hcons
      have hr2 : Reachable ops pos i2 := hreach i2 hi2 (by rw [hv2]; omega)
      obtain ⟨L, hL⟩ := hr2
      have hcycle : DPath ops pos pos (L + 1) := DPath.tail hL hd2
      have := dpath_rank ops rank hin hrank hpos hcycle
      omega
    exact ih (clk - 1) (alapStep ops done clk)
      (by
        rcases hclk with h | h
        · omega
        · right
          push_cast at h ⊢
          omega)
      (by rw [alapStep_length, hlen]) hstep_reach hstep_anchor

/-! ## Claim C8: the ALAP anchor -/

/-- **C8.** For every non-empty ASAP vector over an acyclic, in-range
operation sequence, `alap_scheduling` anchors the backward propagation at the
first position attaining the maximum ASAP value `Cmax`, assigns that
operation ALAP cycle exactly `Cmax`, and no later operation attaining `Cmax`
acts as an anchor: every operation that receives a value at all is
backward-reachable from the single anchor. -/
theorem alap_scheduling_anchor (ops : List ScheduleOperation) (asap : List Int)
    (rank : Nat → Nat) (hlen : asap.length = ops.length) (hne : asap ≠ [])
    (hin : InRange ops) (hrank : RankAcyclic ops rank) :
    ∃ cmax out, asap.max? = some cmax ∧
      alap_scheduling ops asap = some out ∧
      alapSink asap < ops.length ∧
      asap.getD (alapSink asap) 0 = cmax ∧
      (∀ j < alapSink asap, ∀ (h : j < asap.length), asap[j] ≠ cmax) ∧
      out.getD (alapSink asap) (-1) = cmax ∧
      (∀ j < ops.length, out.getD j (-1) ≠ -1 → Reachable ops (alapSink asap) j) := by
  obtain ⟨cmax, hm, hmem, hub, hsink, hidx⟩ := alap_setup asap hne
  have hpos : alapSink asap < ops.length := by rw [hsink]; omega
  have hval : asap.getD (alapSink asap) 0 = cmax := by
    rw [hsink, getD_eq_getElem _ _ _ (by omega)]
    exact List.getElem_indexOf (by omega)
  have hfirst : ∀ j < alapSink asap, ∀ (h : j < asap.length), asap[j] ≠ cmax := by
    intro j hj h
    rw [hsink] at hj
    exact lt_indexOf_ne asap cmax j hj h
  have hinit_len : ((List.replicate ops.length (-1 : Int)).set (asap.indexOf cmax)
      cmax).length = ops.length := by simp
  have hinit_reach : ∀ i < ops.length,
      ((List.replicate ops.length (-1 : Int)).set (asap.indexOf cmax) cmax).getD i (-1)
        ≠ -1 → Reachable ops (alapSink asap) i := by
    intro i hi hne2
    by_cases hieq : i = alapSink asap
    · rw [hieq]
      exact ⟨0, DPath.refl⟩
    · rw [hsink] at hieq ⊢
      rw [getD_set_ne _ _ _ hieq] at hne2
      exact absurd (getD_replicate _ _ hi) hne2
  have hinit_anchor : ((List.replicate ops.length (-1 : Int)).set (asap.indexOf cmax)
      cmax).getD (alapSink asap) (-1) = cmax := by
    rw [hsink]
    exact getD_set_self _ _ _ _ (by simp; omega)
  obtain ⟨c1, c2, c3⟩ := alapLoop_weak ops rank hin hrank (alapSink asap) cmax hpos
    (cmax - 1).toNat (cmax - 1)
    ((List.replicate ops.length (-1)).set (asap.indexOf cmax) cmax)
    (by omega) hinit_len hinit_reach hinit_anchor
  exact ⟨cmax, _, hm, alap_scheduling_eq ops asap hm, hpos, hval, hfirst, c3, c2⟩

/-- Witness for C8 at Scenario A's ASAP vector (identity rank). -/
theorem alap_scheduling_anchor_witness :
    ∃ cmax out, ([1, 1, 2, 3] : List Int).max? = some cmax ∧
      alap_scheduling opsA [1, 1, 2, 3] = some out ∧
      alapSink [1, 1, 2, 3] < opsA.length ∧
      ([1, 1, 2, 3] : List Int).getD (alapSink [1, 1, 2, 3]) 0 = cmax ∧
      (∀ j < alapSink [1, 1, 2, 3], ∀ (h : j < ([1, 1, 2, 3] : List Int).length),
        ([1, 1, 2, 3] : List Int)[j] ≠ cmax) ∧
      out.getD (alapSink [1, 1, 2, 3]) (-1) = cmax ∧
      (∀ j < opsA.length, out.getD j (-1) ≠ -1 →
        Reachable opsA (alapSink [1, 1, 2, 3]) j) :=
  alap_scheduling_anchor opsA [1, 1, 2, 3] (fun i => i) (by decide) (by decide)
    (by decide) (by decide)

/-! ## Claim C5: ALAP respects dependencies on the reachable part -/

/-- Strong invariant of the backward sweep with `f` passes remaining: an
operation carrying a value carries `cmax` minus its longest discovered
backward path from the anchor, where "discovered" means within the levels
already swept. -/
def SInvP (ops : List ScheduleOperation) (pos : Nat) (cmax : Int) (f : Nat)
    (done : List Int) : Prop :=
  done.length = ops.length ∧
  ∀ i < ops.length,
    ((∃ L, DPath ops pos i L ∧ (L : Int) + (f : Int) ≤ cmax - 1) →
      ∃ L, DPath ops pos i L ∧ (L : Int) + (f : Int) ≤ cmax - 1 ∧
        done.getD i (-1) = cmax - (L : Int) ∧
        ∀ L2, DPath ops pos i L2 → (L2 : Int) + (f : Int) ≤ cmax - 1 → L2 ≤ L) ∧
    ((¬ ∃ L, DPath ops pos i L ∧ (L : Int) + (f : Int) ≤ cmax - 1) →
      done.getD i (-1) = -1)

lemma SInv_base (ops : List ScheduleOperation) (pos : Nat) (cmax : Int)
    (hpos : pos < ops.length) (hcm : 1 ≤ cmax) :
    SInvP ops pos cmax (cmax - 1).toNat
      ((List.replicate ops.length (-1)).set pos cmax) := by
  have hf : (((cmax - 1).toNat : Nat) : Int) = cmax - 1 := by omega
  refine ⟨by simp, fun i hi => ⟨?_, ?_⟩⟩
  · rintro ⟨L, hL, hb⟩
    rw [hf] at hb
    have hL0 : L = 0 := by omega
    subst hL0
    have hip : i = pos := dpath_zero ops hL
    subst hip
    refine ⟨0, DPath.refl, by rw [hf]; omega, ?_, ?_⟩
    · rw [getD_set_self _ _ _ _ (by simp; omega)]
      omega
    · intro L2 _ hb2
      rw [hf] at hb2
      omega
  · intro hnone
    have hip : i ≠ pos := by
      intro hip
      exact hnone ⟨0, hip ▸ DPath.refl, by rw [hf]; omega⟩
    rw [getD_set_ne _ _ _ hip]
    exact getD_replicate _ _ hi

lemma SInv_step (ops : List ScheduleOperation) (pos : Nat) (cmax : Int)
    (hin : InRange ops) (f : Nat) (hf : ((f + 1 : Nat) : Int) ≤ cmax - 1)
    (done : List Int) (h : SInvP ops pos cmax (f + 1) done) :
    SInvP ops pos cmax f (alapStep ops done ((f + 1 : Nat) : Int)) := by
  obtain ⟨hlen, hmain⟩ := h
  refine ⟨by rw [alapStep_length, hlen], ?_⟩
  intro p hp
  have hgetD := alapStep_getD ops done ((f + 1 : Nat) : Int) (p := p) (by omega)
  by_cases hcons : alapConsumed ops done ((f + 1 : Nat) : Int) p = true
  · -- some consumer at the current level pushes p now
    obtain ⟨i2, hi2, hv2, hd2⟩ :=
      (alapConsumed_iff ops done ((f + 1 : Nat) : Int) p).mp hcons
    have hne2 : done.getD i2 (-1) ≠ -1 := by
      rw [hv2]
      push_cast
      omega
    obtain ⟨hExi2, hnon2⟩ := hmain i2 hi2
    have hEx2 : ∃ L, DPath ops pos i2 L ∧ (L : Int) + ((f + 1 : Nat) : Int) ≤ cmax - 1 := by
      by_contra hc
      exact hne2 (hnon2 (by push_cast at hc ⊢; exact hc))
    obtain ⟨Li, hLpath, hLbound, hLval, hLmax⟩ :=
      hExi2 (by push_cast at hEx2 ⊢; exact hEx2)
    have hLi : (Li : Int) = cmax - ((f : Int) + 2) := by
      rw [hLval] at hv2
      push_cast at hv2
      omega
    constructor
    · intro _
      refine ⟨Li + 1, DPath.tail hLpath hd2, by push_cast; omega, ?_, ?_⟩
      · rw [hgetD, if_pos hcons]
        push_cast
        omega
      · intro L2 _ hb2
        push_cast at hb2
        omega
    · intro hnone
      exact absurd ⟨Li + 1, DPath.tail hLpath hd2, by push_cast; omega⟩ hnone
  · rw [if_neg hcons] at hgetD
    obtain ⟨hExp, hnonp⟩ := hmain p hp
    have hnoexact : ¬ ∃ L2, DPath ops pos p L2 ∧ (L2 : Int) = cmax - 1 - (f : Int) := by
      rintro ⟨L2, hp2, hb2⟩
      have hL2pos : 1 ≤ L2 := by
        push_cast at hf
        omega
      obtain ⟨m, rfl⟩ : ∃ m, L2 = m + 1 := ⟨L2 - 1, by omega⟩
      obtain ⟨i2, hpi2, hdi2⟩ := dpath_snoc_inv ops hp2
      have hi2n : i2 < ops.length := isDep_lt ops hdi2
      obtain ⟨hExi2, _⟩ := hmain i2 hi2n
      obtain ⟨Li, hLp, hLb, hLv, hLm⟩ := hExi2 ⟨m, hpi2, by push_cast at hb2 ⊢; omega⟩
      have hLim : Li = m := by
        have hge := hLm m hpi2 (by push_cast at hb2 ⊢; omega)
        push_cast at hb2 hLb
        omega
      apply absurd _ hcons
      refine (alapConsumed_iff ops done ((f + 1 : Nat) : Int) p).mpr
        ⟨i2, hi2n, ?_, hdi2⟩
      rw [hLv, hLim]
      push_cast at hb2 ⊢
      omega
    have hall : ∀ L3, DPath ops pos p L3 → (L3 : Int) + (f : Int) ≤ cmax - 1 →
        (L3 : Int) + (f : Int) + 1 ≤ cmax - 1 := by
      intro L3 h3 hb3
      by_contra hc3
      exact hnoexact ⟨L3, h3, by omega⟩
    constructor
    · rintro ⟨L2, hp2, hb2⟩
      obtain ⟨Li, hLp, hLb, hLv, hLm⟩ :=
        hExp ⟨L2, hp2, by have := hall L2 hp2 hb2; push_cast at this ⊢; omega⟩
      refine ⟨Li, hLp, by push_cast at hLb ⊢; omega, by rw [hgetD]; exact hLv, ?_⟩
      intro L3 h3 hb3
      exact hLm L3 h3 (by have := hall L3 h3 hb3; push_cast at this ⊢; omega)
    · intro hnone
      rw [hgetD]
      apply hnonp
      rintro ⟨L2, hp2, hb2⟩
      exact hnone ⟨L2, hp2, by push_cast at hb2 ⊢; omega⟩

lemma alapLoop_SInv (ops : List ScheduleOperation) (pos : Nat) (cmax : Int)
    (hin : InRange ops) :
    ∀ (f : Nat) (done : List Int), ((f : Nat) : Int) ≤ cmax - 1 →
      SInvP ops pos cmax f done →
      SInvP ops pos cmax 0 (alapLoop ops done ((f : Nat) : Int) f) := by
  intro f
  induction f with
  | zero =>
    intro done _ h
    exact h
  | succ f ih =>
    intro done hf h
    have hunfold : alapLoop ops done (((f + 1 : Nat)) : Int) (f + 1) =
        alapLoop ops (alapStep ops done (((f + 1 : Nat)) : Int))
          ((((f + 1 : Nat)) : Int) - 1) f := rfl
    have harith : (((f + 1 : Nat)) : Int) - 1 = ((f : Nat) : Int) := by push_cast; ring
    rw [hunfold, harith]
    exact ih (alapStep ops done (((f + 1 : Nat)) : Int))
      (by push_cast at hf ⊢; omega)
      (SInv_step ops pos cmax hin f hf done h)

lemma asap_pos (ops : List ScheduleOperation) (asap : List Int) (rank : Nat → Nat)
    (hin : InRange ops) (hrank : RankAcyclic ops rank)
    (hasap : ∀ i < ops.length, asap.getD i 0 = 1 + depMax asap (opAt ops i)) :
    ∀ i < ops.length, 1 ≤ asap.getD i 0 := by
  have key : ∀ r i, i < ops.length → rank i < r → 1 ≤ asap.getD i 0 := by
    intro r
    induction r with
    | zero =>
      intro i hi hr
      omega
    | succ r ih =>
      intro i hi hr
      rw [hasap i hi]
      have hdm : 0 ≤ depMax asap (opAt ops i) := by
        unfold depMax
        split_ifs with hA hB hC
        · omega
        · have e1 : (opAt ops i).index1 ≠ -1 := fun he => hA ⟨he, hB⟩
          rcases (hin i hi).1 with he | ⟨he1, he2⟩
          · exact absurd he e1
          · have hlt : (opAt ops i).index1.toNat < ops.length := by omega
            have hform : (opAt ops i).index1 = Int.ofNat (opAt ops i).index1.toNat := by
              rw [Int.ofNat_eq_natCast, Int.toNat_of_nonneg he1]
            have hrj := hrank i hi _ hlt (Or.inl hform)
            have := ih _ hlt (by omega)
            omega
        · rcases (hin i hi).2 with he | ⟨he1, he2⟩
          · exact absurd he hB
          · have hlt : (opAt ops i).index2.toNat < ops.length := by omega
            have hform : (opAt ops i).index2 = Int.ofNat (opAt ops i).index2.toNat := by
              rw [Int.ofNat_eq_natCast, Int.toNat_of_nonneg he1]
            have hrj := hrank i hi _ hlt (Or.inr hform)
            have := ih _ hlt (by omega)
            omega
        · rcases (hin i hi).1 with he | ⟨he1, he2⟩
          · exact absurd he hC
          · have hlt : (opAt ops i).index1.toNat < ops.length := by omega
            have hform : (opAt ops i).index1 = Int.ofNat (opAt ops i).index1.toNat := by
              rw [Int.ofNat_eq_natCast, Int.toNat_of_nonneg he1]
            have hrj := hrank i hi _ hlt (Or.inl hform)
            have h1 := ih _ hlt (by omega)
            have : asap.getD (opAt ops i).index1.toNat 0 ≤
                max (asap.getD (opAt ops i).index1.toNat 0)
                  (asap.getD (opAt ops i).index2.toNat 0) := le_max_left _ _
            omega
      omega
  intro i hi
  exact key (rank i + 1) i hi (by omega)

lemma depMax_ge_dep (sched : List Int) (op : ScheduleOperation) {j : Nat}
    (h : op.index1 = Int.ofNat j ∨ op.index2 = Int.ofNat j) :
    sched.getD j 0 ≤ depMax sched op := by
  unfold depMax
  split_ifs with hA hB hC
  · rcases h with he | he
    · exact absurd (hA.1 ▸ he : (-1 : Int) = Int.ofNat j) (Ne.symm (ofNat_ne_neg_one j))
    · exact absurd (hA.2 ▸ he : (-1 : Int) = Int.ofNat j) (Ne.symm (ofNat_ne_neg_one j))
  · rcases h with he | he
    · rw [he, show (Int.ofNat j).toNat = j from rfl]
    · exact absurd (hB ▸ he : (-1 : Int) = Int.ofNat j) (Ne.symm (ofNat_ne_neg_one j))
  · rcases h with he | he
    · exact absurd (hC ▸ he : (-1 : Int) = Int.ofNat j) (Ne.symm (ofNat_ne_neg_one j))
    · rw [he, show (Int.ofNat j).toNat = j from rfl]
  · rcases h with he | he
    · rw [he, show (Int.ofNat j).toNat = j from rfl]
      exact le_max_left _ _
    · rw [he, show (Int.ofNat j).toNat = j from rfl]
      exact le_max_right _ _

lemma asap_strict (ops : List ScheduleOperation) (asap : List Int)
    (hasap : ∀ i < ops.length, asap.getD i 0 = 1 + depMax asap (opAt ops i)) :
    ∀ i < ops.length, ∀ j, isDep ops i j → asap.getD j 0 < asap.getD i 0 := by
  intro i hi j hj
  rw [hasap i hi]
  have := depMax_ge_dep asap (opAt ops i) hj
  omega

lemma dpath_asap_bound (ops : List ScheduleOperation) (asap : List Int) (pos : Nat)
    (cmax : Int)
    (hasap : ∀ i < ops.length, asap.getD i 0 = 1 + depMax asap (opAt ops i))
    (hval : asap.getD pos 0 = cmax) {i L : Nat}
    (h : DPath ops pos i L) : (L : Int) + asap.getD i 0 ≤ cmax := by
  induction h with
  | refl =>
    rw [hval]
    omega
  | tail hp hd ih =>
    next i2 j2 L2 =>
    have hi2 : i2 < ops.length := isDep_lt ops hd
    have := asap_strict ops asap hasap i2 hi2 j2 hd
    push_cast
    push_cast at ih
    omega

/-- **C5.** For every operation sequence with acyclic, in-range dependencies
and a correct ASAP vector (one satisfying the ASAP recurrence),
`alap_scheduling` assigns every operation backward-reachable from the sink a
cycle strictly greater than the cycle of each of its internal
dependencies. -/
theorem alap_scheduling_respects_deps (ops : List ScheduleOperation) (asap : List Int)
    (rank : Nat → Nat) (hlen : asap.length = ops.length) (hne : asap ≠ [])
    (hin : InRange ops) (hrank : RankAcyclic ops rank)
    (hasap : ∀ i < ops.length, asap.getD i 0 = 1 + depMax asap (opAt ops i)) :
    ∃ out, alap_scheduling ops asap = some out ∧
      ∀ i < ops.length, Reachable ops (alapSink asap) i →
        ∀ j, isDep ops i j → out.getD j (-1) < out.getD i (-1) := by
  obtain ⟨cmax, hm, hmem, hub, hsink, hidx⟩ := alap_setup asap hne
  have hpos : alapSink asap < ops.length := by rw [hsink]; omega
  have hval : asap.getD (alapSink asap) 0 = cmax := by
    rw [hsink, getD_eq_getElem _ _ _ (by omega)]
    exact List.getElem_indexOf (by omega)
  have hcm1 : 1 ≤ cmax := by
    rw [← hval]
    exact asap_pos ops asap rank hin hrank hasap _ hpos
  have hbase := SInv_base ops (alapSink asap) cmax hpos hcm1
  have hcast : (((cmax - 1).toNat : Nat) : Int) = cmax - 1 := by omega
  have hloop := alapLoop_SInv ops (alapSink asap) cmax hin (cmax - 1).toNat
    ((List.replicate ops.length (-1)).set (alapSink asap) cmax)
    (by omega) hbase
  rw [hcast] at hloop
  obtain ⟨hreslen, hres⟩ := hloop
  have hpathbound : ∀ k L2, DPath ops (alapSink asap) k L2 →
      (L2 : Int) + (0 : Nat) ≤ cmax - 1 := by
    intro k L2 hp2
    have hk : k < ops.length := dpath_lt ops hin hpos hp2
    have hb := dpath_asap_bound ops asap (alapSink asap) cmax hasap hval hp2
    have := asap_pos ops asap rank hin hrank hasap k hk
    push_cast
    omega
  refine ⟨alapLoop ops
      ((List.replicate ops.length (-1)).set (asap.indexOf cmax) cmax)
      (cmax - 1) (cmax - 1).toNat, alap_scheduling_eq ops asap hm, ?_⟩
  rw [← hsink]
  intro i hi hreach j hj
  obtain ⟨L, hL⟩ := hreach
  have hjn : j < ops.length := dpath_lt ops hin hpos (DPath.tail hL hj)
  obtain ⟨hExi, _⟩ := hres i hi
  obtain ⟨Li, hLp, _, hLv, hLm⟩ := hExi ⟨L, hL, hpathbound i L hL⟩
  obtain ⟨hExj, _⟩ := hres j hjn
  obtain ⟨Lj, hJp, _, hJv, hJm⟩ := hExj
    ⟨Li + 1, DPath.tail hLp hj, hpathbound j (Li + 1) (DPath.tail hLp hj)⟩
  have hLij : Li + 1 ≤ Lj :=
    hJm (Li + 1) (DPath.tail hLp hj) (hpathbound j (Li + 1) (DPath.tail hLp hj))
  rw [hLv, hJv]
  push_cast
  omega

/-- Witness for C5 at Scenario A: dependencies of reachable operations get
strictly smaller ALAP cycles. -/
theorem alap_scheduling_respects_deps_witness :
    ∃ out, alap_scheduling opsA [1, 1, 2, 3] = some out ∧
      ∀ i < opsA.length, Reachable opsA (alapSink [1, 1, 2, 3]) i →
        ∀ j, isDep opsA i j → out.getD j (-1) < out.getD i (-1) :=
  alap_scheduling_respects_deps opsA [1, 1, 2, 3] (fun i => i) (by decide) (by decide)
    (by decide) (by decide) (by decide)

/-! ## Claim C9: the mobility (priority) function -/

/-- **C9.** For every pair of equal-length integer vectors `ASAP` and `ALAP` of
length `N`, `priority_function` returns a vector of exactly `N` integers with
`priority[i] = ALAP[i] - ASAP[i] + 1`; in particular the inputs
`ASAP = [1,1,2,3,3,4]`, `ALAP = [1,2,2,3,3,4]` yield `[1,2,1,1,1,1]`. -/
theorem priority_function_spec (asap alap : List Int) (N : Nat)
    (h1 : asap.length = N) (h2 : alap.length = N) :
    ((priority_function asap alap N).length = N ∧
      ∀ i < N, (priority_function asap alap N).getD i 0 =
        alap.getD i 0 - asap.getD i 0 + 1) ∧
    priority_function [1, 1, 2, 3, 3, 4] [1, 2, 2, 3, 3, 4] 6 = [1, 2, 1, 1, 1, 1] := by
  refine ⟨⟨by simp [priority_function], ?_⟩, by decide⟩
  intro i hi
  simp [priority_function, List.getD_eq_getElem?_getD, List.getElem?_map,
    List.getElem?_range, hi]

/-- Witness for C9 at the Scenario D input of the spec. -/
theorem priority_function_spec_witness :
    ([1, 1, 2, 3, 3, 4] : List Int).length = 6 ∧
    (priority_function [1, 1, 2, 3, 3, 4] [1, 2, 2, 3, 3, 4] 6).length = 6 := by
  exact ⟨by decide,
    (priority_function_spec [1, 1, 2, 3, 3, 4] [1, 2, 2, 3, 3, 4] 6
      (by decide) (by decide)).1.1⟩

/-! ## Claim C10: ALAP on an empty input -/

/-- **C10.** Called with an empty operation sequence and empty ASAP vector,
`alap_scheduling` does not return a vector: `max([])` raises `ValueError`
(modelled by `none`). -/
theorem alap_scheduling_empty :
    alap_scheduling [] [] = none := rfl

/-! ## Claim C6: non-positive resource capacity -/

/-- **C6 evaluation.** With a single additive operation and `n_adder = 0`,
`priority_scheduling` returns normally with the sentinel vector `[-1]`
instead of signalling a failure: the claim (and §4.4/§7 of the spec) demand a
distinct error, so this is a divergence of the code from its specification. -/
theorem priority_scheduling_starved_adder_returns_sentinel :
    priority_scheduling [⟨"u0", '+', -1, -1⟩] [1] [1] 1 0 = [-1] := by decide

end ListSched
